import Mathlib

/-!
# Verification of the analytics core of the quantum-job dashboard

Shallow embedding of `src/utils/analytics.ts`: the four pure analytics
functions `computeDurations`, `estimateWaitTimesByBackend`,
`recommendBackends` and `detectAnomalies` over lists of job records.

Modelling conventions:

* JavaScript numbers are modelled by `JSNum`: `NaN`, `Infinity`, `-Infinity`
  or a finite value represented as an exact rational.  Floating-point
  rounding is not modelled; all arithmetic is exact.
* `new Date(s).getTime()` and `parseInt(s, 10)` are opaque string-to-number
  conversions; the embedding is parameterised by a `ParseEnv` supplying both,
  so every theorem holds for an arbitrary parse oracle.
* JavaScript objects used as string-keyed maps (`Record<string, ...>`)
  preserve key insertion order; they are modelled as association lists in
  insertion order.  (The special JS ordering of integer-like keys is not
  modelled; no statement below depends on key order.)
* `Array.prototype.sort` with a numeric comparator is a stable sort; it is
  modelled as a stable insertion sort `sortJS` on the comparator's strict
  "must come before" relation.
* Display-only strings (the `reasons` entries and the free-form `details`
  text) are presentational formatting; the anomaly `details` string is
  modelled by the backend name it starts with, which is the only structured
  content the specification's claims refer to.
-/

namespace Analytics

/-- A JavaScript number: `NaN`, `+Infinity`, `-Infinity`, or a finite value
modelled as an exact rational. -/
inductive JSNum where
  | nan : JSNum
  | inf : JSNum
  | ninf : JSNum
  | fin : ℚ → JSNum
deriving DecidableEq, Repr

namespace JSNum

/-- JS unary negation. -/
def neg : JSNum → JSNum
  | nan => nan
  | inf => ninf
  | ninf => inf
  | fin q => fin (-q)

/-- JS addition. -/
def add : JSNum → JSNum → JSNum
  | nan, _ => nan
  | _, nan => nan
  | inf, ninf => nan
  | ninf, inf => nan
  | inf, _ => inf
  | _, inf => inf
  | ninf, _ => ninf
  | _, ninf => ninf
  | fin a, fin b => fin (a + b)

/-- JS subtraction (`a - b = a + (-b)`). -/
def sub (a b : JSNum) : JSNum := add a (neg b)

/-- JS multiplication (only `+0` is modelled, as nothing in the source
distinguishes signed zeros). -/
def mul : JSNum → JSNum → JSNum
  | nan, _ => nan
  | _, nan => nan
  | inf, inf => inf
  | inf, ninf => ninf
  | ninf, inf => ninf
  | ninf, ninf => inf
  | inf, fin q => if 0 < q then inf else if q < 0 then ninf else nan
  | fin q, inf => if 0 < q then inf else if q < 0 then ninf else nan
  | ninf, fin q => if 0 < q then ninf else if q < 0 then inf else nan
  | fin q, ninf => if 0 < q then ninf else if q < 0 then inf else nan
  | fin a, fin b => fin (a * b)

/-- JS division (only `+0` is modelled). -/
def div : JSNum → JSNum → JSNum
  | nan, _ => nan
  | _, nan => nan
  | inf, inf => nan
  | inf, ninf => nan
  | ninf, inf => nan
  | ninf, ninf => nan
  | inf, fin q => if q < 0 then ninf else inf
  | ninf, fin q => if q < 0 then inf else ninf
  | fin _, inf => fin 0
  | fin _, ninf => fin 0
  | fin a, fin b =>
      if b = 0 then (if a = 0 then nan else if 0 < a then inf else ninf)
      else fin (a / b)

/-- JS `Math.max` on two arguments. -/
def maxJ : JSNum → JSNum → JSNum
  | nan, _ => nan
  | _, nan => nan
  | inf, _ => inf
  | _, inf => inf
  | ninf, b => b
  | a, ninf => a
  | fin a, fin b => fin (max a b)

/-- JS `Math.min` on two arguments. -/
def minJ : JSNum → JSNum → JSNum
  | nan, _ => nan
  | _, nan => nan
  | ninf, _ => ninf
  | _, ninf => ninf
  | inf, b => b
  | a, inf => a
  | fin a, fin b => fin (min a b)

/-- JS `Number.isFinite`. -/
def isFiniteB : JSNum → Bool
  | fin _ => true
  | _ => false

/-- Underlying rational of a finite `JSNum` (0 for the non-finite values;
only used under an `isFiniteB` guard). -/
def toQ : JSNum → ℚ
  | fin q => q
  | _ => 0

/-- JS comparison `a >= b` (`NaN` compares false to everything). -/
def jsGeB : JSNum → JSNum → Bool
  | nan, _ => false
  | _, nan => false
  | inf, _ => true
  | fin _, inf => false
  | _, ninf => true
  | ninf, _ => false
  | fin a, fin b => decide (b ≤ a)

/-- JS comparison `x > c` against a finite rational constant. -/
def jsGtC (x : JSNum) (c : ℚ) : Bool :=
  match x with
  | fin d => decide (c < d)
  | inf => true
  | _ => false

/-- The value is a non-negative JS number in the sense of `x >= 0`
(so `NaN` is not non-negative, `Infinity` is). -/
def nonneg (x : JSNum) : Prop := x = inf ∨ ∃ q : ℚ, x = fin q ∧ 0 ≤ q

/-- JS `reduce((a, b) => a + b, 0)`. -/
def jsum (l : List JSNum) : JSNum := l.foldl add (fin 0)

end JSNum

/-! ## The job record

The input record type (`Job` in `loadJobs.ts`).  `status` is kept as a raw
string: TypeScript's union type is erased at runtime and the analytics code
only ever compares it with `===` against the literals `"COMPLETED"` and
`"FAILED"`.  The fields `job_name`, `shots`, `provider` and `target` are
never read by the analytics functions and are omitted.  `backend` is a
string (empty models a missing backend), `end_time` and `execution_time`
are `string | null`. -/
structure Job where
  job_id : String
  backend : String
  backend_type : Option String
  status : String
  creation_time : String
  end_time : Option String
  execution_time : Option String
deriving DecidableEq, Repr

/-- The two opaque string-to-number conversions used by the source:
`dateMs s` models `new Date(s).getTime()` and `intMs s` models
`parseInt(s, 10)`.  Both return `NaN` on unparseable input; no further
assumption is made. -/
structure ParseEnv where
  dateMs : String → JSNum
  intMs : String → JSNum

/-- Output record of `computeDurations` (`JobDurations` in the source). -/
structure JobDurations where
  job_id : String
  backend : String
  backend_type : Option String
  status : String
  queueSec : JSNum
  execSec : JSNum
deriving DecidableEq, Repr

/-- `j.backend || 'Unknown'` (empty string is falsy). -/
def normBackend (j : Job) : String :=
  if j.backend = "" then "Unknown" else j.backend

/-- `x ? parse(x) : NaN` for a `string | null` field: `null` and `""` are
falsy. -/
def parseOptional (p : String → JSNum) : Option String → JSNum
  | none => JSNum.nan
  | some s => if s = "" then JSNum.nan else p s

/-- `const startMs = new Date(j.creation_time).getTime()`. -/
def startMsOf (env : ParseEnv) (j : Job) : JSNum := env.dateMs j.creation_time

/-- `const endMs = j.end_time ? new Date(j.end_time).getTime() : NaN`. -/
def endMsOf (env : ParseEnv) (j : Job) : JSNum := parseOptional env.dateMs j.end_time

/-- `const execMs = j.execution_time ? parseInt(j.execution_time, 10) : NaN`. -/
def execMsOf (env : ParseEnv) (j : Job) : JSNum := parseOptional env.intMs j.execution_time

/-- `Math.max(0, (endMs - startMs) / 1000)`, the end-time-based estimate. -/
def endBasedSec (env : ParseEnv) (j : Job) : JSNum :=
  JSNum.maxJ (JSNum.fin 0) (((endMsOf env j).sub (startMsOf env j)).div (JSNum.fin 1000))

/-- The `execSec` binding of `computeDurations`. -/
def execSecOf (env : ParseEnv) (j : Job) : JSNum :=
  if (execMsOf env j).isFiniteB && (execMsOf env j).jsGeB (JSNum.fin 0) then
    (execMsOf env j).div (JSNum.fin 1000)
  else if (endMsOf env j).isFiniteB then endBasedSec env j
  else JSNum.fin 0

/-- The `turnaroundSec` binding of `computeDurations`. -/
def turnaroundSecOf (env : ParseEnv) (j : Job) : JSNum :=
  if (endMsOf env j).isFiniteB then endBasedSec env j else execSecOf env j

/-- The `queueSec` binding of `computeDurations`. -/
def queueSecOf (env : ParseEnv) (j : Job) : JSNum :=
  JSNum.maxJ (JSNum.fin 0) ((turnaroundSecOf env j).sub (execSecOf env j))

/-- The body of the `map` in `computeDurations`, for one job record. -/
def durRecord (env : ParseEnv) (j : Job) : JobDurations :=
  { job_id := j.job_id
    backend := normBackend j
    backend_type := j.backend_type
    status := j.status
    queueSec := queueSecOf env j
    execSec := execSecOf env j }

/-- `computeDurations` (analytics.ts lines 12-36): drop records whose
`creation_time` is falsy, derive queue/exec estimates for the rest. -/
def computeDurations (env : ParseEnv) (jobs : List Job) : List JobDurations :=
  (jobs.filter (fun j => j.creation_time != "")).map (durRecord env)

/-! ## First-occurrence deduplication

`Array.from(new Set(xs))` keeps the first occurrence of each element, in
order.  `dedupFirstAux seen l` drops elements of `l` already in `seen` and
later duplicates. -/

/-- Worker for `dedupFirst`. -/
def dedupFirstAux (seen : List String) : List String → List String
  | [] => []
  | x :: xs =>
      if seen.contains x then dedupFirstAux seen xs
      else x :: dedupFirstAux (x :: seen) xs

/-- `Array.from(new Set(l))`: first occurrences, in order. -/
def dedupFirst (l : List String) : List String := dedupFirstAux [] l

theorem mem_dedupFirstAux (seen : List String) (l : List String) (a : String) :
    a ∈ dedupFirstAux seen l ↔ a ∈ l ∧ a ∉ seen := by
  induction l generalizing seen with
  | nil => simp [dedupFirstAux]
  | cons x xs ih =>
      by_cases hx : x ∈ seen
      · simp only [dedupFirstAux, List.contains, List.elem_eq_mem, hx, decide_eq_true_eq,
          if_true, ih, List.mem_cons]
        constructor
        · rintro ⟨h1, h2⟩; exact ⟨Or.inr h1, h2⟩
        · rintro ⟨h1 | h1, h2⟩
          · exact absurd (h1 ▸ hx) h2
          · exact ⟨h1, h2⟩
      · rw [show dedupFirstAux seen (x :: xs) = x :: dedupFirstAux (x :: seen) xs by
          simp [dedupFirstAux, List.contains, List.elem_eq_mem, hx]]
        simp only [List.mem_cons, ih]
        constructor
        · rintro (rfl | ⟨h1, h2⟩)
          · exact ⟨Or.inl rfl, hx⟩
          · exact ⟨Or.inr h1, fun hc => h2 (Or.inr hc)⟩
        · rintro ⟨rfl | h1, h2⟩
          · exact Or.inl rfl
          · by_cases hax : a = x
            · exact Or.inl hax
            · exact Or.inr ⟨h1, fun hc => hc.elim hax h2⟩

theorem mem_dedupFirst (l : List String) (a : String) :
    a ∈ dedupFirst l ↔ a ∈ l := by
  simp [dedupFirst, mem_dedupFirstAux]

theorem nodup_dedupFirstAux (seen : List String) (l : List String) :
    (dedupFirstAux seen l).Nodup := by
  induction l generalizing seen with
  | nil => simp [dedupFirstAux]
  | cons x xs ih =>
      by_cases hx : x ∈ seen
      · simpa [dedupFirstAux, List.contains, List.elem_eq_mem, hx] using ih seen
      · rw [show dedupFirstAux seen (x :: xs) = x :: dedupFirstAux (x :: seen) xs by
          simp [dedupFirstAux, List.contains, List.elem_eq_mem, hx]]
        refine List.Nodup.cons (fun hc => ?_) (ih (x :: seen))
        exact ((mem_dedupFirstAux _ _ _).mp hc).2 (List.mem_cons_self _ _)

theorem nodup_dedupFirst (l : List String) : (dedupFirst l).Nodup :=
  nodup_dedupFirstAux [] l

theorem dedupFirstAux_append_singleton (seen : List String) (l : List String) (x : String) :
    dedupFirstAux seen (l ++ [x]) =
      dedupFirstAux seen l ++ (if x ∈ seen ∨ x ∈ l then [] else [x]) := by
  induction l generalizing seen with
  | nil => by_cases hx : x ∈ seen <;> simp [dedupFirstAux, List.contains, List.elem_eq_mem, hx]
  | cons y ys ih =>
      by_cases hy : y ∈ seen
      · rw [List.cons_append,
          show dedupFirstAux seen (y :: (ys ++ [x])) = dedupFirstAux seen (ys ++ [x]) by
            simp [dedupFirstAux, List.contains, List.elem_eq_mem, hy],
          show dedupFirstAux seen (y :: ys) = dedupFirstAux seen ys by
            simp [dedupFirstAux, List.contains, List.elem_eq_mem, hy], ih]
        have hiff : (x ∈ seen ∨ x ∈ ys) ↔ (x ∈ seen ∨ x ∈ y :: ys) := by
          simp only [List.mem_cons]
          constructor
          · rintro (h | h)
            · exact Or.inl h
            · exact Or.inr (Or.inr h)
          · rintro (h | rfl | h)
            · exact Or.inl h
            · exact Or.inl hy
            · exact Or.inr h
        rw [if_congr hiff rfl rfl]
      · rw [List.cons_append,
          show dedupFirstAux seen (y :: (ys ++ [x])) = y :: dedupFirstAux (y :: seen) (ys ++ [x]) by
            simp [dedupFirstAux, List.contains, List.elem_eq_mem, hy],
          show dedupFirstAux seen (y :: ys) = y :: dedupFirstAux (y :: seen) ys by
            simp [dedupFirstAux, List.contains, List.elem_eq_mem, hy],
          ih (y :: seen)]
        rw [List.cons_append]
        have hiff : (x ∈ y :: seen ∨ x ∈ ys) ↔ (x ∈ seen ∨ x ∈ y :: ys) := by
          simp only [List.mem_cons]; tauto
        rw [if_congr hiff rfl rfl]

theorem dedupFirst_append_singleton (l : List String) (x : String) :
    dedupFirst (l ++ [x]) = dedupFirst l ++ (if x ∈ l then [] else [x]) := by
  simpa [dedupFirst] using dedupFirstAux_append_singleton [] l x

/-! ## Stable sort

`Array.prototype.sort(cmp)` for a consistent numeric comparator: a stable
sort where `x` is placed before an existing `y` exactly when `cmp x y < 0`.
`insertLt lt x l` inserts `x` into `l` before the first `y` with `lt x y`
(so after all equal elements: stability), and `sortJS` folds the input in
order. -/

/-- Insert `x` before the first element it must strictly precede. -/
def insertLt (lt : α → α → Bool) (x : α) : List α → List α
  | [] => [x]
  | y :: ys => if lt x y then x :: y :: ys else y :: insertLt lt x ys

/-- Stable insertion sort modelling `Array.prototype.sort` with a
consistent comparator. -/
def sortJS (lt : α → α → Bool) (l : List α) : List α :=
  l.foldl (fun acc x => insertLt lt x acc) []

theorem insertLt_perm (lt : α → α → Bool) (x : α) (l : List α) :
    (insertLt lt x l).Perm (x :: l) := by
  induction l with
  | nil => simp [insertLt]
  | cons y ys ih =>
      by_cases h : lt x y
      · simp [insertLt, h]
      · simp only [insertLt, h, if_false]
        exact (ih.cons y).trans (List.Perm.swap x y ys)

theorem sortJS_perm (lt : α → α → Bool) (l : List α) : (sortJS lt l).Perm l := by
  suffices h : ∀ (l acc : List α),
      (l.foldl (fun acc x => insertLt lt x acc) acc).Perm (acc ++ l) by
    simpa using h l []
  intro l
  induction l with
  | nil => simp
  | cons x xs ih =>
      intro acc
      simp only [List.foldl_cons]
      refine (ih (insertLt lt x acc)).trans ?_
      refine (List.Perm.append_right xs (insertLt_perm lt x acc)).trans ?_
      simpa using List.perm_middle.symm

theorem mem_insertLt (lt : α → α → Bool) (x : α) (l : List α) (z : α) :
    z ∈ insertLt lt x l ↔ z = x ∨ z ∈ l := by
  rw [(insertLt_perm lt x l).mem_iff]; simp

/-- Sortedness of `insertLt` for a comparator-induced order: `le` is the
non-strict order, `lt` the strict Boolean test. -/
theorem pairwise_insertLt (le : α → α → Prop) (lt : α → α → Bool)
    (h1 : ∀ a b, lt a b = true → le a b)
    (h2 : ∀ a b, lt a b = false → le b a)
    (htr : ∀ a b c, le a b → le b c → le a c)
    (x : α) (l : List α) (hl : l.Pairwise le) :
    (insertLt lt x l).Pairwise le := by
  induction l with
  | nil => simp [insertLt]
  | cons y ys ih =>
      rcases List.pairwise_cons.mp hl with ⟨hy, hys⟩
      by_cases h : lt x y
      · simp only [insertLt, h, if_true]
        refine List.pairwise_cons.mpr ⟨?_, hl⟩
        intro z hz
        rcases List.mem_cons.mp hz with rfl | hz
        · exact h1 _ _ h
        · exact htr _ _ _ (h1 _ _ h) (hy z hz)
      · simp only [insertLt, h, if_false]
        refine List.pairwise_cons.mpr ⟨?_, ih hys⟩
        intro z hz
        rcases (mem_insertLt lt x ys z).mp hz with rfl | hz
        · exact h2 _ _ (by simpa using h)
        · exact hy z hz

theorem sortJS_pairwise (le : α → α → Prop) (lt : α → α → Bool)
    (h1 : ∀ a b, lt a b = true → le a b)
    (h2 : ∀ a b, lt a b = false → le b a)
    (htr : ∀ a b c, le a b → le b c → le a c)
    (l : List α) : (sortJS lt l).Pairwise le := by
  suffices h : ∀ (l acc : List α), acc.Pairwise le →
      (l.foldl (fun acc x => insertLt lt x acc) acc).Pairwise le by
    exact h l [] (List.Pairwise.nil)
  intro l
  induction l with
  | nil => intro acc h; simpa using h
  | cons x xs ih =>
      intro acc hacc
      simp only [List.foldl_cons]
      exact ih _ (pairwise_insertLt le lt h1 h2 htr x acc hacc)

/-- Naturality of `sortJS` under a map that reflects the comparator. -/
theorem sortJS_map (f : α → β) (lt : α → α → Bool) (ltB : β → β → Bool)
    (h : ∀ a b, ltB (f a) (f b) = lt a b) (l : List α) :
    sortJS ltB (l.map f) = (sortJS lt l).map f := by
  suffices hins : ∀ (x : α) (l : List α),
      insertLt ltB (f x) (l.map f) = (insertLt lt x l).map f by
    suffices hfold : ∀ (l acc : List α),
        (l.map f).foldl (fun acc x => insertLt ltB x acc) (acc.map f) =
          (l.foldl (fun acc x => insertLt lt x acc) acc).map f by
      simpa using hfold l []
    intro l
    induction l with
    | nil => intro acc; simp
    | cons x xs ih =>
        intro acc
        simp only [List.map_cons, List.foldl_cons, hins x acc]
        exact ih (insertLt lt x acc)
  intro x l
  induction l with
  | nil => simp [insertLt]
  | cons y ys ih =>
      simp only [List.map_cons, insertLt, h x y]
      by_cases hxy : lt x y
      · simp [hxy]
      · simp [hxy, ih]

/-! ## Grouping queue times by backend

`const byBackend: Record<string, number[]> = {}` filled with
`byBackend[d.backend].push(d.queueSec)` over the durations, modelled as an
association list in key insertion order. -/

/-- Append `v` to the bucket of `key`, creating the bucket at the end if the
key is new. -/
def pushGroup (key : String) (v : JSNum) :
    List (String × List JSNum) → List (String × List JSNum)
  | [] => [(key, [v])]
  | (k, arr) :: rest =>
      if k = key then (k, arr ++ [v]) :: rest else (k, arr) :: pushGroup key v rest

/-- The `byBackend` map built by iterating over the duration records. -/
def groupQueues (ds : List JobDurations) : List (String × List JSNum) :=
  ds.foldl (fun acc d => pushGroup d.backend d.queueSec acc) []

/-- The backend's queue-time sample, in duration-record order. -/
def sampleQ (ds : List JobDurations) (b : String) : List JSNum :=
  (ds.filter (fun d => d.backend == b)).map (fun d => d.queueSec)

theorem pushGroup_map (B : List String) (hB : B.Nodup) (s : String → List JSNum)
    (k : String) (v : JSNum) :
    pushGroup k v (B.map (fun b => (b, s b))) =
      if k ∈ B then B.map (fun b => (b, if b = k then s b ++ [v] else s b))
      else B.map (fun b => (b, s b)) ++ [(k, [v])] := by
  induction B with
  | nil => simp [pushGroup]
  | cons x xs ih =>
      rcases List.nodup_cons.mp hB with ⟨hx, hxs⟩
      by_cases hxk : x = k
      · subst hxk
        simp only [List.map_cons, pushGroup, if_pos rfl, List.mem_cons, true_or, if_true,
          if_pos rfl]
        congr 1
        refine (List.map_congr_left ?_).symm
        intro b hb
        have : b ≠ x := fun hbx => hx (hbx ▸ hb)
        simp [this]
      · simp only [List.map_cons, pushGroup, hxk, if_false, List.mem_cons,
          Ne.symm hxk, false_or, ih hxs]
        by_cases hk : k ∈ xs
        · simp [hk, hxk]
        · simp [hk]

theorem groupQueues_append (ds : List JobDurations) (d : JobDurations) :
    groupQueues (ds ++ [d]) = pushGroup d.backend d.queueSec (groupQueues ds) := by
  simp [groupQueues]

theorem sampleQ_append (ds : List JobDurations) (d : JobDurations) (b : String) :
    sampleQ (ds ++ [d]) b =
      sampleQ ds b ++ (if d.backend = b then [d.queueSec] else []) := by
  by_cases h : d.backend = b <;> simp [sampleQ, List.filter_append, h]

theorem sampleQ_eq_nil_of_not_mem (ds : List JobDurations) (b : String)
    (h : b ∉ ds.map (fun d => d.backend)) : sampleQ ds b = [] := by
  rw [sampleQ, List.map_eq_nil_iff, List.filter_eq_nil_iff]
  intro d hd
  simp only [beq_iff_eq]
  exact fun hb => h (hb ▸ List.mem_map_of_mem (fun d => d.backend) hd)

/-- The grouped map is exactly: one bucket per distinct backend in first
occurrence order, holding that backend's queue-time sample in order. -/
theorem groupQueues_eq (ds : List JobDurations) :
    groupQueues ds =
      (dedupFirst (ds.map (fun d => d.backend))).map (fun b => (b, sampleQ ds b)) := by
  induction ds using List.reverseRecOn with
  | nil => simp [groupQueues, dedupFirst, dedupFirstAux, sampleQ]
  | append_singleton ds d ih =>
      rw [groupQueues_append, ih, List.map_append, List.map_singleton,
        dedupFirst_append_singleton]
      rw [pushGroup_map _ (nodup_dedupFirst _) _ _ _]
      by_cases hmem : d.backend ∈ ds.map (fun x => x.backend)
      · rw [if_pos ((mem_dedupFirst _ _).mpr hmem), if_pos hmem, List.append_nil]
        refine List.map_congr_left ?_
        intro b hb
        rw [sampleQ_append]
        by_cases hdb : d.backend = b
        · simp [hdb, if_pos hdb.symm]
        · have : b ≠ d.backend := fun h => hdb h.symm
          simp [this, hdb]
      · rw [if_neg (fun hc => hmem ((mem_dedupFirst _ _).mp hc)), if_neg hmem]
        rw [List.map_append]
        congr 1
        · refine List.map_congr_left ?_
          intro b hb
          have hbd : d.backend ≠ b := fun h =>
            hmem (h ▸ ((mem_dedupFirst _ _).mp hb))
          simp [sampleQ_append, hbd]
        · simp only [List.map_singleton]
          rw [sampleQ_append, sampleQ_eq_nil_of_not_mem ds _ hmem]
          simp

/-- Buckets of `groupQueues` are the nonempty samples. -/
theorem mem_groupQueues (ds : List JobDurations) (b : String) (arr : List JSNum) :
    (b, arr) ∈ groupQueues ds ↔ arr = sampleQ ds b ∧ arr ≠ [] := by
  rw [groupQueues_eq]
  constructor
  · intro h
    rcases List.mem_map.mp h with ⟨b2, hb2, heq⟩
    have hb : b2 = b := congrArg Prod.fst heq
    subst hb
    have harr : arr = sampleQ ds b2 := (congrArg Prod.snd heq).symm
    refine ⟨harr, ?_⟩
    have hmem : b2 ∈ ds.map (fun d => d.backend) := (mem_dedupFirst _ _).mp hb2
    rcases List.mem_map.mp hmem with ⟨d, hd, hdb⟩
    have : d.queueSec ∈ sampleQ ds b2 := by
      refine List.mem_map_of_mem _ (List.mem_filter.mpr ⟨hd, ?_⟩)
      simp [hdb]
    intro hnil
    rw [← harr, hnil] at this
    exact absurd this (List.not_mem_nil _)
  · rintro ⟨rfl, hne⟩
    refine List.mem_map.mpr ⟨b, ?_, rfl⟩
    rw [mem_dedupFirst]
    by_contra hmem
    exact hne (sampleQ_eq_nil_of_not_mem ds b hmem)

/-! ## Backend wait-time aggregator (analytics.ts lines 38-54) -/

/-- Ascending numeric order used by `sort((a, b) => a - b)`: `x` must come
strictly before `y` when the comparator is negative. -/
def jsAscLt (x y : JSNum) : Bool :=
  match x.sub y with
  | JSNum.fin q => decide (q < 0)
  | JSNum.ninf => true
  | _ => false

/-- One value of the wait-time mapping. -/
structure WaitStats where
  mean : JSNum
  p90 : JSNum
  count : ℕ
deriving DecidableEq, Repr

/-- `Math.min(sorted.length - 1, Math.floor(sorted.length * 0.9))`. -/
def p90Index (n : ℕ) : ℕ := Nat.min (n - 1) (9 * n / 10)

/-- The wait-stats record for a group, given the (already looked-up) p90
value: mean of the sorted sample, the p90 value, and the group size. -/
def waitStatsWith (arr : List JSNum) (p90 : JSNum) : WaitStats :=
  { mean := (JSNum.jsum (sortJS jsAscLt arr)).div (JSNum.fin ((sortJS jsAscLt arr).length : ℚ))
    p90 := p90
    count := arr.length }

/-- The checked p90 lookup `sorted[Math.min(sorted.length - 1, ...)]`. -/
def waitP90Opt (arr : List JSNum) : Option JSNum :=
  (sortJS jsAscLt arr)[p90Index (sortJS jsAscLt arr).length]?

/-- `estimateWaitTimesByBackend`: group queue times by backend, and for each
nonempty group report mean, nearest-rank p90 and count.  The result object is
modelled as an association list in key insertion order. -/
def estimateWaitTimesByBackend (env : ParseEnv) (jobs : List Job) :
    List (String × WaitStats) :=
  (groupQueues (computeDurations env jobs)).filterMap (fun p =>
    if p.2.length = 0 then none
    else some (p.1, waitStatsWith p.2
      ((sortJS jsAscLt p.2).getD (p90Index (sortJS jsAscLt p.2).length) (JSNum.fin 0))))

/-- `estimateWaitTimesByBackend` with the array access `sorted[idx]` made
explicit: out-of-bounds indexing is the only operation of the function whose
strict model is partial, so it is threaded through `Option`. -/
def estimateWaitTimesOpt (env : ParseEnv) (jobs : List Job) :
    Option (List (String × WaitStats)) :=
  (groupQueues (computeDurations env jobs)).foldl (fun result p =>
    result.bind (fun res =>
      if p.2.length = 0 then some res
      else (waitP90Opt p.2).map (fun p90 =>
        res ++ [(p.1, waitStatsWith p.2 p90)]))) (some [])

/-! ## Backend recommender (analytics.ts lines 56-100) -/

/-- The `weights` argument; the source default is
`{ success: 0.5, queue: 0.3, exec: 0.2 }`.  Weights are plain finite numeric
constants, modelled as rationals. -/
structure Weights where
  success : ℚ
  queue : ℚ
  exec : ℚ
deriving DecidableEq, Repr

/-- The source's default weights. -/
def defaultWeights : Weights := ⟨1/2, 3/10, 1/5⟩

/-- The per-backend raw statistics built in the first `map` of
`recommendBackends`. -/
structure Stat where
  backend : String
  success : ℚ
  avgQueue : JSNum
  avgExec : JSNum
  count : ℕ
deriving DecidableEq, Repr

/-- The `stats` list of `recommendBackends`: one entry per distinct backend
(first-occurrence order), with success rate and average queue/exec seconds
(`Infinity` when the backend has no duration records). -/
def mkStats (env : ParseEnv) (jobs : List Job) : List Stat :=
  let durations := computeDurations env jobs
  (dedupFirst (jobs.map normBackend)).map (fun b =>
    let subset := jobs.filter (fun j => normBackend j == b)
    let n := if subset.length = 0 then 1 else subset.length
    let completed := (subset.filter (fun j => j.status == "COMPLETED")).length
    let success : ℚ := (completed : ℚ) / (n : ℚ)
    let durSubset := durations.filter (fun d => d.backend == b)
    let avgQueue :=
      if durSubset.length = 0 then JSNum.inf
      else (durSubset.foldl (fun a d => a.add d.queueSec) (JSNum.fin 0)).div
        (JSNum.fin (durSubset.length : ℚ))
    let avgExec :=
      if durSubset.length = 0 then JSNum.inf
      else (durSubset.foldl (fun a d => a.add d.execSec) (JSNum.fin 0)).div
        (JSNum.fin (durSubset.length : ℚ))
    { backend := b, success := success, avgQueue := avgQueue, avgExec := avgExec
      count := n })

/-- The finite elements of a list of JS numbers (`filter(Number.isFinite)`). -/
def finVals (l : List JSNum) : List ℚ :=
  l.filterMap (fun x => match x with | JSNum.fin q => some q | _ => none)

/-- `Math.max(...stats.map(s => s.success), 1)`. -/
def maxSuccessOf (stats : List Stat) : ℚ :=
  (stats.map (fun s => s.success)).foldr max 1

/-- `Math.min(...stats.map(s => s.avgQueue).filter(Number.isFinite), 0)`. -/
def minQueueOf (stats : List Stat) : ℚ :=
  (finVals (stats.map (fun s => s.avgQueue))).foldr min 0

/-- `Math.max(...stats.map(s => s.avgQueue).filter(Number.isFinite), 1)`. -/
def maxQueueOf (stats : List Stat) : ℚ :=
  (finVals (stats.map (fun s => s.avgQueue))).foldr max 1

/-- `Math.min(...stats.map(s => s.avgExec).filter(Number.isFinite), 0)`. -/
def minExecOf (stats : List Stat) : ℚ :=
  (finVals (stats.map (fun s => s.avgExec))).foldr min 0

/-- `Math.max(...stats.map(s => s.avgExec).filter(Number.isFinite), 1)`. -/
def maxExecOf (stats : List Stat) : ℚ :=
  (finVals (stats.map (fun s => s.avgExec))).foldr max 1

/-- `maxSuccess ? s.success / maxSuccess : 0`. -/
def successNOf (stats : List Stat) (s : Stat) : ℚ :=
  if maxSuccessOf stats ≠ 0 then s.success / maxSuccessOf stats else 0

/-- The normalized queue component: the success/queue/exec values are all
finite rationals, so the normalization arithmetic lives in `ℚ`. -/
def queueNOf (stats : List Stat) (s : Stat) : ℚ :=
  if s.avgQueue.isFiniteB ∧ maxQueueOf stats ≠ minQueueOf stats then
    1 - (s.avgQueue.toQ - minQueueOf stats) / (maxQueueOf stats - minQueueOf stats)
  else 0

/-- The normalized exec component. -/
def execNOf (stats : List Stat) (s : Stat) : ℚ :=
  if s.avgExec.isFiniteB ∧ maxExecOf stats ≠ minExecOf stats then
    1 - (s.avgExec.toQ - minExecOf stats) / (maxExecOf stats - minExecOf stats)
  else 0

/-- `weights.success * successN + weights.queue * queueN + weights.exec * execN`. -/
def scoreOf (w : Weights) (stats : List Stat) (s : Stat) : ℚ :=
  w.success * successNOf stats s + w.queue * queueNOf stats s + w.exec * execNOf stats s

/-- A scored entry (`{ ...s, score, reasons }`); the `reasons` display
strings carry no structured content beyond the raw fields and are omitted. -/
structure Scored where
  backend : String
  success : ℚ
  avgQueue : JSNum
  avgExec : JSNum
  count : ℕ
  score : ℚ
deriving DecidableEq, Repr

/-- The scoring `map` of `recommendBackends`. -/
def scoreStats (w : Weights) (stats : List Stat) : List Scored :=
  stats.map (fun s =>
    { backend := s.backend, success := s.success, avgQueue := s.avgQueue
      avgExec := s.avgExec, count := s.count, score := scoreOf w stats s })

/-- `sort((a, b) => b.score - a.score)`: descending by score; `x` strictly
precedes `y` when the comparator is negative, i.e. `y.score < x.score`. -/
def scoredDescLt (x y : Scored) : Bool := decide (y.score < x.score)

/-- `recommendBackends` (analytics.ts lines 56-100). -/
def recommendBackends (env : ParseEnv) (jobs : List Job) (w : Weights) :
    List Scored :=
  sortJS scoredDescLt (scoreStats w (mkStats env jobs))

/-! ## Anomaly detector (analytics.ts lines 102-142) -/

/-- The two anomaly kinds. -/
inductive AnomalyType where
  | stuck : AnomalyType
  | failure_cluster : AnomalyType
deriving DecidableEq, Repr

/-- An emitted anomaly.  The free-form `details` string of the source is
modelled by the backend name it starts with (its only structured content
used by the specification); the rounded figures and the z-score rendered to
two decimals are display formatting. -/
structure Anomaly where
  job_id : String
  type : AnomalyType
  backend : String
deriving DecidableEq, Repr

/-- The test `z > 2.5` where `z = (q - mean) / (Math.sqrt(variance) || 1)`,
expressed without real square roots: for finite positive variance `v`,
`(q - mean) / sqrt v > 2.5` holds exactly when `q - mean > 0` and
`(q - mean)^2 > 2.5^2 * v` (see `stuckFlag_iff_real`).  When `sqrt(variance)`
is `0` or `NaN` (variance zero, negative or `NaN`), `|| 1` makes the
standard deviation `1`. -/
def stuckFlag (q mean variance : JSNum) : Bool :=
  match variance with
  | JSNum.fin v =>
      if 0 < v then
        match q.sub mean with
        | JSNum.fin d => decide (0 < d) && decide (25/4 * v < d ^ 2)
        | JSNum.inf => true
        | _ => false
      else (q.sub mean).jsGtC (5/2)
  | JSNum.inf => ((q.sub mean).div JSNum.inf).jsGtC (5/2)
  | _ => (q.sub mean).jsGtC (5/2)

/-- `arr.reduce((a, b) => a + b, 0) / arr.length`. -/
def jsMean (arr : List JSNum) : JSNum :=
  (JSNum.jsum arr).div (JSNum.fin (arr.length : ℚ))

/-- `arr.reduce((a, b) => a + (b - mean) * (b - mean), 0) / arr.length`. -/
def jsVariance (arr : List JSNum) : JSNum :=
  (arr.foldl (fun a b => a.add ((b.sub (jsMean arr)).mul (b.sub (jsMean arr))))
    (JSNum.fin 0)).div (JSNum.fin (arr.length : ℚ))

/-- The stuck anomalies pushed for one backend bucket with at least eight
records: every duration record of the backend whose z-score exceeds 2.5. -/
def stuckBlock (ds : List JobDurations) (backend : String) (arr : List JSNum) :
    List Anomaly :=
  (ds.filter (fun d => d.backend == backend)).filterMap (fun d =>
    if stuckFlag d.queueSec (jsMean arr) (jsVariance arr) then
      some { job_id := d.job_id, type := AnomalyType.stuck, backend := backend }
    else none)

/-- The z-score pass of `detectAnomalies` (lines 112-127). -/
def stuckAnoms (ds : List JobDurations) : List Anomaly :=
  (groupQueues ds).foldl (fun anomalies p =>
    if p.2.length < 8 then anomalies
    else anomalies ++ stuckBlock ds p.1 p.2) []

/-- `slice(-20)`: the last `n` elements. -/
def lastN (n : ℕ) (l : List α) : List α := l.drop (l.length - n)

/-- The "recent" window of `detectAnomalies` for backend `b`: the last 20 of
its jobs in input order. -/
def fcWindow (jobs : List Job) (b : String) : List Job :=
  lastN 20 (jobs.filter (fun j => normBackend j == b))

/-- The failure-cluster condition: at least 10 jobs in the window and a
failure rate of at least one half. -/
def fcCond (jobs : List Job) (b : String) : Prop :=
  10 ≤ (fcWindow jobs b).length ∧
    (1 : ℚ)/2 ≤ (((fcWindow jobs b).filter (fun j => j.status == "FAILED")).length : ℚ) /
      ((fcWindow jobs b).length : ℚ)

instance (jobs : List Job) (b : String) : Decidable (fcCond jobs b) := by
  unfold fcCond; infer_instance

/-- The failure-cluster anomaly pushed for one backend (lines 131-139).
The unguarded `recent[recent.length - 1]` access is total here because it
is reached only with at least 10 elements; the strict partial model is
`detectAnomaliesOpt`. -/
def fcBlock (jobs : List Job) (b : String) : List Anomaly :=
  let recent := fcWindow jobs b
  if 10 ≤ recent.length then
    if (1 : ℚ)/2 ≤ ((recent.filter (fun j => j.status == "FAILED")).length : ℚ) /
        (recent.length : ℚ) then
      match recent.getLast? with
      | some j => [{ job_id := j.job_id, type := AnomalyType.failure_cluster, backend := b }]
      | none => []
    else []
  else []

/-- The failure-cluster pass of `detectAnomalies` (lines 129-139). -/
def fcAnoms (jobs : List Job) : List Anomaly :=
  (dedupFirst (jobs.map normBackend)).foldl (fun anomalies b =>
    anomalies ++ fcBlock jobs b) []

/-- `detectAnomalies` (analytics.ts lines 102-142): the z-score pass
followed by the failure-cluster pass. -/
def detectAnomalies (env : ParseEnv) (jobs : List Job) : List Anomaly :=
  stuckAnoms (computeDurations env jobs) ++ fcAnoms jobs

/-- `detectAnomalies` with the one partial operation of the source made
explicit: the member access on `recent[recent.length - 1]` would throw on an
empty window, so it is threaded through `Option`. -/
def detectAnomaliesOpt (env : ParseEnv) (jobs : List Job) : Option (List Anomaly) :=
  (dedupFirst (jobs.map normBackend)).foldl (fun acc b =>
    acc.bind (fun anomalies =>
      if 10 ≤ (fcWindow jobs b).length then
        if (1 : ℚ)/2 ≤ (((fcWindow jobs b).filter (fun j => j.status == "FAILED")).length : ℚ) /
            ((fcWindow jobs b).length : ℚ) then
          ((fcWindow jobs b).getLast?).map (fun j =>
            anomalies ++
              [{ job_id := j.job_id, type := AnomalyType.failure_cluster, backend := b }])
        else some anomalies
      else some anomalies)) (some (stuckAnoms (computeDurations env jobs)))

/-! ## Claim-side definitions

These definitions follow the specification's wording rather than the
source; each is compared with the corresponding source-side definition in a
theorem below. -/

/-- Spec-side duration record, following the claim's wording: `execSec` is
`execMs / 1000` when `execMs` is a valid finite non-negative number, else
`max(0, (endMs - startMs) / 1000)` when `endMs` is valid, else `0`;
`turnaroundSec` is `max(0, (endMs - startMs) / 1000)` when `endMs` is valid,
else `execSec`; `queueSec` is `max(0, turnaroundSec - execSec)`. -/
def specDurRecord (env : ParseEnv) (j : Job) : JobDurations :=
  let startMs := env.dateMs j.creation_time
  let endMs := parseOptional env.dateMs j.end_time
  let execMs := parseOptional env.intMs j.execution_time
  let execValid := execMs.isFiniteB && execMs.jsGeB (JSNum.fin 0)
  let endValid := endMs.isFiniteB
  let execSec :=
    if execValid then execMs.div (JSNum.fin 1000)
    else if endValid then JSNum.maxJ (JSNum.fin 0) ((endMs.sub startMs).div (JSNum.fin 1000))
    else JSNum.fin 0
  let turnaroundSec :=
    if endValid then JSNum.maxJ (JSNum.fin 0) ((endMs.sub startMs).div (JSNum.fin 1000))
    else execSec
  { job_id := j.job_id
    backend := normBackend j
    backend_type := j.backend_type
    status := j.status
    queueSec := JSNum.maxJ (JSNum.fin 0) (turnaroundSec.sub execSec)
    execSec := execSec }

/-- Spec-side minimum of a list: the least element for a nonempty list, the
default otherwise ("computed only over the finite values, defaulting ..."). -/
def listMinD (d : ℚ) : List ℚ → ℚ
  | [] => d
  | [x] => x
  | x :: y :: xs => min x (listMinD d (y :: xs))

/-- Spec-side maximum of a list, analogous to `listMinD`. -/
def listMaxD (d : ℚ) : List ℚ → ℚ
  | [] => d
  | [x] => x
  | x :: y :: xs => max x (listMaxD d (y :: xs))

/-- Spec-side population mean of a rational sample. -/
def popMean (l : List ℚ) : ℚ := l.sum / (l.length : ℚ)

/-- Spec-side population variance of a rational sample. -/
def popVar (l : List ℚ) : ℚ :=
  ((l.map (fun x => (x - popMean l) ^ 2)).sum) / (l.length : ℚ)

/-- The backend's queue-time sample as rationals (meaningful when all the
sample's values are finite). -/
def sampleVals (env : ParseEnv) (jobs : List Job) (b : String) : List ℚ :=
  (sampleQ (computeDurations env jobs) b).map JSNum.toQ

/-! ## Basic facts about the JS number model -/

namespace JSNum

theorem sub_fin_fin (a b : ℚ) : (fin a).sub (fin b) = fin (a - b) := by
  simp [sub, neg, add, sub_eq_add_neg]

theorem div_fin_fin (a b : ℚ) (hb : b ≠ 0) : (fin a).div (fin b) = fin (a / b) := by
  simp [div, hb]

theorem maxJ_fin_fin (a b : ℚ) : maxJ (fin a) (fin b) = fin (max a b) := rfl

theorem not_nonneg_nan : ¬ nonneg nan := by
  rintro (h | ⟨q, h, _⟩) <;> exact JSNum.noConfusion h

theorem nonneg_fin (q : ℚ) (h : 0 ≤ q) : nonneg (fin q) := Or.inr ⟨q, rfl, h⟩

theorem nonneg_or_nan_maxJ_zero (x : JSNum) :
    nonneg (maxJ (fin 0) x) ∨ maxJ (fin 0) x = nan := by
  cases x with
  | nan => exact Or.inr rfl
  | inf => exact Or.inl (Or.inl rfl)
  | ninf => exact Or.inl (nonneg_fin 0 le_rfl)
  | fin q => exact Or.inl (nonneg_fin (max 0 q) (le_max_left 0 q))

theorem isFiniteB_iff (x : JSNum) : x.isFiniteB = true ↔ ∃ q : ℚ, x = fin q := by
  cases x <;> simp [isFiniteB]

end JSNum

/-! ## C2: functional characterization of `computeDurations` -/

/-- Claim C2 (confirmed).  `computeDurations` keeps exactly the input records
with a truthy `creation_time` (hence its output is never longer than its
input and no record with `creation_time = ""` contributes an output entry),
and maps each kept record through the estimation formulas stated by the
specification (`specDurRecord` transcribes the claim's wording). -/
theorem computeDurations_spec (env : ParseEnv) (jobs : List Job) :
    computeDurations env jobs =
      (jobs.filter (fun j => j.creation_time != "")).map (specDurRecord env) ∧
    (computeDurations env jobs).length ≤ jobs.length := by
  constructor
  · rfl
  · rw [computeDurations, List.length_map]
    exact List.length_filter_le _ _

/-! ## C1: non-negativity of the derived durations -/

/-- Parse oracle for the C1 counterexample: `"t0"` parses as epoch 0,
everything else is unparseable. -/
def envC1 : ParseEnv :=
  { dateMs := fun s => if s = "t0" then JSNum.fin 0 else JSNum.nan
    intMs := fun _ => JSNum.nan }

/-- A job whose `creation_time` is truthy but unparseable while its
`end_time` parses. -/
def jobC1 : Job :=
  { job_id := "j1", backend := "A", backend_type := none, status := "QUEUED"
    creation_time := "bad", end_time := some "t0", execution_time := none }

/-- Claim C1 (refuted as stated).  With a truthy but unparseable
`creation_time` and a parseable `end_time`, `startMs` is `NaN`, so
`Math.max(0, (endMs - NaN)/1000)` is `NaN` and the emitted record's
`queueSec` (and `execSec`) is `NaN`, which is not `>= 0` in JS. -/
theorem computeDurations_nonneg_counterexample :
    (computeDurations envC1 [jobC1]).map (fun d => d.queueSec) = [JSNum.nan] ∧
    (computeDurations envC1 [jobC1]).map (fun d => d.execSec) = [JSNum.nan] ∧
    ¬ JSNum.nonneg JSNum.nan ∧
    jobC1.creation_time ≠ "" ∧
    envC1.dateMs jobC1.creation_time = JSNum.nan ∧
    jobC1.end_time.map envC1.dateMs = some (JSNum.fin 0) :=
  ⟨by decide, by decide, JSNum.not_nonneg_nan, by decide, by decide, by decide⟩

/-- Claim C1 (amended, proved).  Every emitted `queueSec`/`execSec` is either
a non-negative JS number or `NaN`; and for every kept record whose
`creation_time` actually parses to a finite timestamp, both are
non-negative. -/
theorem computeDurations_nonneg (env : ParseEnv) (jobs : List Job) :
    (∀ d ∈ computeDurations env jobs,
      (JSNum.nonneg d.queueSec ∨ d.queueSec = JSNum.nan) ∧
      (JSNum.nonneg d.execSec ∨ d.execSec = JSNum.nan)) ∧
    (∀ j ∈ jobs, j.creation_time ≠ "" → (env.dateMs j.creation_time).isFiniteB = true →
      JSNum.nonneg (durRecord env j).queueSec ∧ JSNum.nonneg (durRecord env j).execSec) := by
  have hexec : ∀ j : Job, JSNum.nonneg (execSecOf env j) ∨ execSecOf env j = JSNum.nan := by
    intro j
    rw [execSecOf]
    by_cases h1 : ((execMsOf env j).isFiniteB && (execMsOf env j).jsGeB (JSNum.fin 0)) = true
    · rw [if_pos h1]
      rw [Bool.and_eq_true] at h1
      rcases (JSNum.isFiniteB_iff _).mp h1.1 with ⟨q, hq⟩
      have hq0 : 0 ≤ q := by
        have := h1.2
        rw [hq] at this
        simpa [JSNum.jsGeB] using this
      rw [hq, JSNum.div_fin_fin q 1000 (by norm_num)]
      exact Or.inl (JSNum.nonneg_fin _ (by positivity))
    · rw [if_neg h1]
      by_cases h2 : (endMsOf env j).isFiniteB = true
      · rw [if_pos h2]
        exact JSNum.nonneg_or_nan_maxJ_zero _
      · rw [if_neg h2]
        exact Or.inl (JSNum.nonneg_fin 0 le_rfl)
  constructor
  · intro d hd
    rcases List.mem_map.mp hd with ⟨j, _, rfl⟩
    exact ⟨JSNum.nonneg_or_nan_maxJ_zero _, hexec j⟩
  · intro j _ _ hfin
    rcases (JSNum.isFiniteB_iff _).mp hfin with ⟨s, hs⟩
    have hfinexec : ∃ q : ℚ, 0 ≤ q ∧ execSecOf env j = JSNum.fin q := by
      rw [execSecOf]
      by_cases h1 : ((execMsOf env j).isFiniteB && (execMsOf env j).jsGeB (JSNum.fin 0)) = true
      · rw [if_pos h1]
        rw [Bool.and_eq_true] at h1
        rcases (JSNum.isFiniteB_iff _).mp h1.1 with ⟨q, hq⟩
        have hq0 : 0 ≤ q := by
          have := h1.2
          rw [hq] at this
          simpa [JSNum.jsGeB] using this
        exact ⟨q / 1000, by positivity, by rw [hq, JSNum.div_fin_fin q 1000 (by norm_num)]⟩
      · rw [if_neg h1]
        by_cases h2 : (endMsOf env j).isFiniteB = true
        · rcases (JSNum.isFiniteB_iff _).mp h2 with ⟨e, he⟩
          refine ⟨max 0 ((e - s) / 1000), le_max_left _ _, ?_⟩
          rw [if_pos h2, endBasedSec, he, show startMsOf env j = JSNum.fin s from hs,
            JSNum.sub_fin_fin, JSNum.div_fin_fin _ 1000 (by norm_num), JSNum.maxJ_fin_fin]
        · exact ⟨0, le_rfl, by rw [if_neg h2]⟩
    rcases hfinexec with ⟨qe, hqe0, hqe⟩
    have hturn : ∃ t : ℚ, 0 ≤ t ∧ turnaroundSecOf env j = JSNum.fin t := by
      rw [turnaroundSecOf]
      by_cases h2 : (endMsOf env j).isFiniteB = true
      · rcases (JSNum.isFiniteB_iff _).mp h2 with ⟨e, he⟩
        refine ⟨max 0 ((e - s) / 1000), le_max_left _ _, ?_⟩
        rw [if_pos h2, endBasedSec, he, show startMsOf env j = JSNum.fin s from hs,
          JSNum.sub_fin_fin, JSNum.div_fin_fin _ 1000 (by norm_num), JSNum.maxJ_fin_fin]
      · exact ⟨qe, hqe0, by rw [if_neg h2]; exact hqe⟩
    rcases hturn with ⟨t, ht0, ht⟩
    constructor
    · show JSNum.nonneg (queueSecOf env j)
      rw [queueSecOf, ht, hqe, JSNum.sub_fin_fin, JSNum.maxJ_fin_fin]
      exact JSNum.nonneg_fin _ (le_max_left 0 _)
    · show JSNum.nonneg (execSecOf env j)
      rw [hqe]
      exact JSNum.nonneg_fin qe hqe0

/-- Witness for the amended C1 theorem at a concrete input. -/
theorem computeDurations_nonneg_witness :
    JSNum.nonneg (durRecord envC1
      { jobC1 with creation_time := "t0" }).queueSec :=
  (((computeDurations_nonneg envC1 [{ jobC1 with creation_time := "t0" }]).2
    { jobC1 with creation_time := "t0" } (by decide) (by decide) (by decide))).1

/-! ## C6: the wait-time aggregator's p90 and counts -/

theorem p90Index_lt (n : ℕ) (h : 1 ≤ n) : p90Index n < n :=
  lt_of_le_of_lt (Nat.min_le_left _ _) (Nat.sub_lt h Nat.one_pos)

/-- Claim C6 (confirmed).  Every entry of the wait-time mapping reports as
`p90` the element at index `min(n - 1, floor(n * 0.9))` of the backend's
queue-time sample sorted ascending — hence a value present in the sample —
and its `count` is the (positive) sample size; no empty group is emitted. -/
theorem estimateWaitTimes_p90 (env : ParseEnv) (jobs : List Job) (b : String)
    (st : WaitStats) (h : (b, st) ∈ estimateWaitTimesByBackend env jobs) :
    st.p90 = (sortJS jsAscLt (sampleQ (computeDurations env jobs) b)).getD
        (Nat.min ((sampleQ (computeDurations env jobs) b).length - 1)
          (9 * (sampleQ (computeDurations env jobs) b).length / 10)) (JSNum.fin 0) ∧
    st.p90 ∈ sampleQ (computeDurations env jobs) b ∧
    st.count = (sampleQ (computeDurations env jobs) b).length ∧
    1 ≤ st.count := by
  rcases List.mem_filterMap.mp h with ⟨p, hp, hf⟩
  obtain ⟨p1, arr⟩ := p
  simp only at hf
  by_cases hlen : arr.length = 0
  · rw [if_pos hlen] at hf
    exact absurd hf (by simp)
  · rw [if_neg hlen] at hf
    have hb : p1 = b := congrArg Prod.fst (Option.some_injective _ hf)
    subst hb
    have hst : st = waitStatsWith arr
        ((sortJS jsAscLt arr).getD (p90Index (sortJS jsAscLt arr).length) (JSNum.fin 0)) :=
      (congrArg Prod.snd (Option.some_injective _ hf)).symm
    have harr : arr = sampleQ (computeDurations env jobs) p1 :=
      ((mem_groupQueues _ _ _).mp hp).1
    have hsortlen : (sortJS jsAscLt arr).length = arr.length :=
      (sortJS_perm jsAscLt arr).length_eq
    have hpos : 1 ≤ arr.length := Nat.one_le_iff_ne_zero.mpr hlen
    have hidx : p90Index (sortJS jsAscLt arr).length < (sortJS jsAscLt arr).length := by
      rw [hsortlen]
      exact p90Index_lt _ hpos
    have hget : (sortJS jsAscLt arr).getD (p90Index (sortJS jsAscLt arr).length) (JSNum.fin 0)
        ∈ sortJS jsAscLt arr := by
      rw [List.getD_eq_getElem?_getD, List.getElem?_eq_getElem hidx, Option.getD_some]
      exact List.getElem_mem _
    refine ⟨?_, ?_, ?_, ?_⟩
    · rw [hst]
      show (sortJS jsAscLt arr).getD (p90Index (sortJS jsAscLt arr).length) (JSNum.fin 0) = _
      rw [hsortlen, harr, p90Index]
    · rw [hst]
      show (sortJS jsAscLt arr).getD (p90Index (sortJS jsAscLt arr).length) (JSNum.fin 0) ∈ _
      rw [← harr]
      exact (sortJS_perm jsAscLt arr).mem_iff.mp hget
    · rw [hst, ← harr]
      rfl
    · rw [hst]
      exact hpos

/-- Concrete input for small witnesses: a single completed job on backend
`"A"` submitted at `"t0"` (epoch 0), finished at `"e1"` (epoch 1000 ms),
with reported execution time `"z"` (0 ms), so its queue time is 1 s. -/
def envW : ParseEnv :=
  { dateMs := fun s =>
      if s = "t0" then JSNum.fin 0 else if s = "e1" then JSNum.fin 1000 else JSNum.nan
    intMs := fun s => if s = "z" then JSNum.fin 0 else JSNum.nan }

/-- The one-job witness input. -/
def jobsW : List Job :=
  [{ job_id := "w1", backend := "A", backend_type := none, status := "COMPLETED"
     creation_time := "t0", end_time := some "e1", execution_time := some "z" }]

/-- Witness for C6 at a concrete input. -/
theorem estimateWaitTimes_p90_witness :
    (WaitStats.mk (JSNum.fin 1) (JSNum.fin 1) 1).p90 ∈ sampleQ (computeDurations envW jobsW) "A" :=
  (estimateWaitTimes_p90 envW jobsW "A" (WaitStats.mk (JSNum.fin 1) (JSNum.fin 1) 1)
    (of_decide_eq_true (by with_unfolding_all rfl))).2.1

/-! ## C10: one recommender entry per distinct backend -/

/-- Claim C10 (confirmed).  `recommendBackends` emits exactly one entry per
distinct normalized backend of the input (empty backend renamed
`"Unknown"`): the emitted backends are a permutation of the distinct
normalized backends in the input, without duplicates; the output is
nonempty whenever the input is; and every entry's `count` is at least 1. -/
theorem recommendBackends_entries (env : ParseEnv) (jobs : List Job) (w : Weights) :
    ((recommendBackends env jobs w).map (fun r => r.backend)).Perm
        (dedupFirst (jobs.map normBackend)) ∧
    ((recommendBackends env jobs w).map (fun r => r.backend)).Nodup ∧
    (∀ b, b ∈ (recommendBackends env jobs w).map (fun r => r.backend) ↔
      b ∈ jobs.map normBackend) ∧
    (jobs ≠ [] → recommendBackends env jobs w ≠ []) ∧
    (∀ r ∈ recommendBackends env jobs w, 1 ≤ r.count) := by
  have hmapb : (recommendBackends env jobs w).map (fun r => r.backend) =
      ((sortJS scoredDescLt (scoreStats w (mkStats env jobs))).map (fun r => r.backend)) := rfl
  have hperm : ((recommendBackends env jobs w).map (fun r => r.backend)).Perm
      (dedupFirst (jobs.map normBackend)) := by
    rw [hmapb]
    refine ((sortJS_perm scoredDescLt _).map (fun r => r.backend)).trans ?_
    rw [scoreStats, List.map_map, mkStats, List.map_map]
    exact (List.map_id _).symm ▸ List.Perm.refl _
  refine ⟨hperm, hperm.nodup_iff.mpr (nodup_dedupFirst _), ?_, ?_, ?_⟩
  · intro b
    rw [hperm.mem_iff, mem_dedupFirst]
  · intro hne hout
    rcases List.exists_mem_of_ne_nil jobs hne with ⟨j, hj⟩
    have : normBackend j ∈ (recommendBackends env jobs w).map (fun r => r.backend) := by
      rw [hperm.mem_iff, mem_dedupFirst]
      exact List.mem_map_of_mem normBackend hj
    rw [hout] at this
    exact absurd this (List.not_mem_nil _)
  · intro r hr
    have hr2 : r ∈ scoreStats w (mkStats env jobs) :=
      (sortJS_perm scoredDescLt _).mem_iff.mp hr
    rcases List.mem_map.mp hr2 with ⟨s, hs, rfl⟩
    rcases List.mem_map.mp hs with ⟨b, _, rfl⟩
    show 1 ≤ (if (jobs.filter (fun j => normBackend j == b)).length = 0 then 1
      else (jobs.filter (fun j => normBackend j == b)).length)
    by_cases h : (jobs.filter (fun j => normBackend j == b)).length = 0
    · rw [if_pos h]
    · rw [if_neg h]
      exact Nat.one_le_iff_ne_zero.mpr h

/-- Witness for C10 at a concrete input. -/
theorem recommendBackends_entries_witness :
    recommendBackends envW jobsW defaultWeights ≠ [] :=
  (recommendBackends_entries envW jobsW defaultWeights).2.2.2.1 (by decide)

/-! ## C5: score bounds and descending order -/

/-- Claim C5 (confirmed).  If the weights are non-negative and sum to 1 and
every normalized component lies in `[0, 1]`, then every returned score lies
in `[0, 1]`; and the returned list is sorted in descending score order. -/
theorem recommendBackends_score_bound (env : ParseEnv) (jobs : List Job) (w : Weights)
    (hws : 0 ≤ w.success) (hwq : 0 ≤ w.queue) (hwe : 0 ≤ w.exec)
    (hsum : w.success + w.queue + w.exec = 1)
    (hcomp : ∀ s ∈ mkStats env jobs,
      (0 ≤ successNOf (mkStats env jobs) s ∧ successNOf (mkStats env jobs) s ≤ 1) ∧
      (0 ≤ queueNOf (mkStats env jobs) s ∧ queueNOf (mkStats env jobs) s ≤ 1) ∧
      (0 ≤ execNOf (mkStats env jobs) s ∧ execNOf (mkStats env jobs) s ≤ 1)) :
    (∀ r ∈ recommendBackends env jobs w, 0 ≤ r.score ∧ r.score ≤ 1) ∧
    (recommendBackends env jobs w).Pairwise (fun a b => b.score ≤ a.score) := by
  constructor
  · intro r hr
    have hr2 : r ∈ scoreStats w (mkStats env jobs) :=
      (sortJS_perm scoredDescLt _).mem_iff.mp hr
    rcases List.mem_map.mp hr2 with ⟨s, hs, rfl⟩
    rcases hcomp s hs with ⟨⟨hs0, hs1⟩, ⟨hq0, hq1⟩, ⟨he0, he1⟩⟩
    show 0 ≤ scoreOf w (mkStats env jobs) s ∧ scoreOf w (mkStats env jobs) s ≤ 1
    rw [scoreOf]
    constructor
    · have h1 := mul_nonneg hws hs0
      have h2 := mul_nonneg hwq hq0
      have h3 := mul_nonneg hwe he0
      linarith
    · have h1 := mul_le_of_le_one_right hws hs1
      have h2 := mul_le_of_le_one_right hwq hq1
      have h3 := mul_le_of_le_one_right hwe he1
      linarith
  · exact sortJS_pairwise (fun a b => b.score ≤ a.score) scoredDescLt
      (fun a b h => le_of_lt (of_decide_eq_true (by rw [scoredDescLt] at h; exact h)))
      (fun a b h => not_lt.mp (of_decide_eq_false (by rw [scoredDescLt] at h; exact h)))
      (fun a b c hab hbc => le_trans hbc hab)
      _

/-- Witness for C5 at a concrete input: the single witness job scores
`0.5 * 1 + 0.3 * 0 + 0.2 * 1 = 7/10`. -/
theorem recommendBackends_score_bound_witness :
    0 ≤ (Scored.mk "A" 1 (JSNum.fin 1) (JSNum.fin 0) 1 (7/10)).score ∧
    (Scored.mk "A" 1 (JSNum.fin 1) (JSNum.fin 0) 1 (7/10)).score ≤ 1 :=
  (recommendBackends_score_bound envW jobsW defaultWeights
      (by norm_num [defaultWeights]) (by norm_num [defaultWeights])
      (by norm_num [defaultWeights]) (by norm_num [defaultWeights])
      (of_decide_eq_true (by with_unfolding_all rfl))).1
    (Scored.mk "A" 1 (JSNum.fin 1) (JSNum.fin 0) 1 (7/10))
    (of_decide_eq_true (by with_unfolding_all rfl))

/-! ## C3: the normalization bounds of the recommender -/

/-- Spec-side `minQueue`: the least finite per-backend average, defaulting
to `0` only when no finite value exists. -/
def minQueueSpec (stats : List Stat) : ℚ :=
  listMinD 0 (finVals (stats.map (fun s => s.avgQueue)))

/-- Spec-side `maxQueue`: the greatest finite per-backend average,
defaulting to `1` only when no finite value exists. -/
def maxQueueSpec (stats : List Stat) : ℚ :=
  listMaxD 1 (finVals (stats.map (fun s => s.avgQueue)))

/-- Spec-side `queueN`, using the spec-side bounds. -/
def queueNSpec (stats : List Stat) (s : Stat) : ℚ :=
  if s.avgQueue.isFiniteB ∧ maxQueueSpec stats ≠ minQueueSpec stats then
    1 - (s.avgQueue.toQ - minQueueSpec stats) / (maxQueueSpec stats - minQueueSpec stats)
  else 0

/-- Parse oracle for the C3/C4 counterexamples. -/
def envT : ParseEnv :=
  { dateMs := fun s =>
      if s = "t0" then JSNum.fin 0
      else if s = "e2" then JSNum.fin 2000
      else if s = "e5" then JSNum.fin 5000
      else if s = "eA" then JSNum.fin 1000
      else if s = "eB" then JSNum.fin 2000
      else if s = "eA2" then JSNum.fin 100
      else if s = "eB2" then JSNum.fin 200
      else JSNum.nan
    intMs := fun s => if s = "z" then JSNum.fin 0 else JSNum.nan }

/-- A completed job on backend `b` created at `"t0"` with end time `e` and
reported execution time 0, so its queue time is the end-time offset. -/
def mkJobT (id b st e : String) : Job :=
  { job_id := id, backend := b, backend_type := none, status := st
    creation_time := "t0", end_time := some e, execution_time := some "z" }

/-- Two backends with average queue times 2 s and 5 s. -/
def jobsC3 : List Job := [mkJobT "a" "A" "COMPLETED" "e2", mkJobT "b" "B" "COMPLETED" "e5"]

/-- Claim C3 (refuted as stated).  With finite per-backend averages `[2, 5]`,
the code's `minQueue` is `0` (the literal `0` always participates in
`Math.min(...finite, 0)`), while the claim's min-over-finite-values is `2`;
consequently the first backend's `queueN` is `3/5`, not the claimed `1`. -/
theorem recommend_normalization_counterexample :
    finVals ((mkStats envT jobsC3).map (fun s => s.avgQueue)) = [2, 5] ∧
    minQueueOf (mkStats envT jobsC3) = 0 ∧
    minQueueSpec (mkStats envT jobsC3) = 2 ∧
    ((mkStats envT jobsC3).map (fun s => queueNOf (mkStats envT jobsC3) s) = [3/5, 0]) ∧
    ((mkStats envT jobsC3).map (fun s => queueNSpec (mkStats envT jobsC3) s) = [1, 0]) ∧
    (3/5 : ℚ) ≠ 1 :=
  ⟨of_decide_eq_true (by with_unfolding_all rfl),
   of_decide_eq_true (by with_unfolding_all rfl),
   of_decide_eq_true (by with_unfolding_all rfl),
   of_decide_eq_true (by with_unfolding_all rfl),
   of_decide_eq_true (by with_unfolding_all rfl),
   by norm_num⟩

theorem foldr_min_eq (d : ℚ) (l : List ℚ) : l.foldr min d = min d (listMinD d l) := by
  induction l with
  | nil => simp [listMinD]
  | cons x xs ih =>
      cases xs with
      | nil => simp [listMinD, min_comm]
      | cons y ys =>
          rw [List.foldr_cons, ih, listMinD]
          rw [min_left_comm]

theorem foldr_max_eq (d : ℚ) (l : List ℚ) : l.foldr max d = max d (listMaxD d l) := by
  induction l with
  | nil => simp [listMaxD]
  | cons x xs ih =>
      cases xs with
      | nil => simp [listMaxD, max_comm]
      | cons y ys =>
          rw [List.foldr_cons, ih, listMaxD]
          rw [max_left_comm]

/-- Claim C3 (amended, proved).  The normalization bounds always include the
injected literals: `minQueue` is the minimum of `0` and all finite averages
and `maxQueue` the maximum of `1` and all finite averages (likewise for
exec); `queueN` follows the claimed formula with these bounds. -/
theorem recommend_normalization (env : ParseEnv) (jobs : List Job) :
    minQueueOf (mkStats env jobs) = min 0 (minQueueSpec (mkStats env jobs)) ∧
    maxQueueOf (mkStats env jobs) = max 1 (maxQueueSpec (mkStats env jobs)) ∧
    minExecOf (mkStats env jobs) =
      min 0 (listMinD 0 (finVals ((mkStats env jobs).map (fun s => s.avgExec)))) ∧
    maxExecOf (mkStats env jobs) =
      max 1 (listMaxD 1 (finVals ((mkStats env jobs).map (fun s => s.avgExec)))) ∧
    (∀ s : Stat, queueNOf (mkStats env jobs) s =
      if s.avgQueue.isFiniteB ∧
          max 1 (maxQueueSpec (mkStats env jobs)) ≠ min 0 (minQueueSpec (mkStats env jobs)) then
        1 - (s.avgQueue.toQ - min 0 (minQueueSpec (mkStats env jobs))) /
          (max 1 (maxQueueSpec (mkStats env jobs)) - min 0 (minQueueSpec (mkStats env jobs)))
      else 0) := by
  refine ⟨foldr_min_eq _ _, foldr_max_eq _ _, foldr_min_eq _ _, foldr_max_eq _ _, ?_⟩
  intro s
  rw [queueNOf, minQueueOf, maxQueueOf, foldr_min_eq, foldr_max_eq]
  rfl

/-! ## C4: (non-)invariance of the ranking under scaling -/

/-- Backend A: ten jobs with queue time 1 s, nine completed, one failed. -/
def jobsS1 : List Job :=
  (List.replicate 9 (mkJobT "a" "A" "COMPLETED" "eA") ++ [mkJobT "a" "A" "FAILED" "eA"]) ++
  List.replicate 10 (mkJobT "b" "B" "COMPLETED" "eB")

/-- The same jobs with every end-time offset scaled by `1/10` (queue times
0.1 s and 0.2 s instead of 1 s and 2 s). -/
def jobsS2 : List Job :=
  (List.replicate 9 (mkJobT "a" "A" "COMPLETED" "eA2") ++ [mkJobT "a" "A" "FAILED" "eA2"]) ++
  List.replicate 10 (mkJobT "b" "B" "COMPLETED" "eB2")

/-- Claim C4 (refuted as stated).  `jobsS2` scales every derived
`queueSec`/`execSec` of `jobsS1` by the positive constant `1/10`, yet the
recommender's ranking order flips from `[A, B]` to `[B, A]`: the literal `1`
injected into `Math.max(...finite, 1)` is not scale-invariant, so shrinking
all queue times compresses the queue-time advantage of A below its
success-rate disadvantage. -/
theorem recommend_scale_counterexample :
    ((computeDurations envT jobsS2).map (fun d => d.queueSec) =
      (computeDurations envT jobsS1).map (fun d => (JSNum.fin (1/10)).mul d.queueSec)) ∧
    ((computeDurations envT jobsS2).map (fun d => d.execSec) =
      (computeDurations envT jobsS1).map (fun d => (JSNum.fin (1/10)).mul d.execSec)) ∧
    (0 : ℚ) < 1/10 ∧
    (recommendBackends envT jobsS1 defaultWeights).map (fun r => r.backend) = ["A", "B"] ∧
    (recommendBackends envT jobsS2 defaultWeights).map (fun r => r.backend) = ["B", "A"] :=
  ⟨of_decide_eq_true (by with_unfolding_all rfl),
   of_decide_eq_true (by with_unfolding_all rfl),
   by norm_num,
   of_decide_eq_true (by with_unfolding_all rfl),
   of_decide_eq_true (by with_unfolding_all rfl)⟩

/-- Scaling every derived queue/exec average of a backend by `c` (the
per-backend effect of scaling all of that backend's `queueSec`/`execSec`
values by `c`; an infinite or `NaN` average stays what it is). -/
def scaleStat (c : ℚ) (s : Stat) : Stat :=
  { s with avgQueue := (JSNum.fin c).mul s.avgQueue
           avgExec := (JSNum.fin c).mul s.avgExec }

theorem finVals_mul_fin (c : ℚ) (hc : 0 < c) (l : List JSNum) :
    finVals (l.map (fun x => (JSNum.fin c).mul x)) = (finVals l).map (fun q => c * q) := by
  induction l with
  | nil => rfl
  | cons x xs ih =>
      cases x with
      | nan => simpa [finVals, JSNum.mul] using ih
      | inf => simpa [finVals, JSNum.mul, hc] using ih
      | ninf => simpa [finVals, JSNum.mul, hc] using ih
      | fin q => simpa [finVals, JSNum.mul] using ih

theorem mul_min_q (c a b : ℚ) (hc : 0 ≤ c) : c * min a b = min (c * a) (c * b) := by
  rcases le_total a b with h | h
  · rw [min_eq_left h, min_eq_left (mul_le_mul_of_nonneg_left h hc)]
  · rw [min_eq_right h, min_eq_right (mul_le_mul_of_nonneg_left h hc)]

theorem mul_max_q (c a b : ℚ) (hc : 0 ≤ c) : c * max a b = max (c * a) (c * b) := by
  rcases le_total a b with h | h
  · rw [max_eq_right h, max_eq_right (mul_le_mul_of_nonneg_left h hc)]
  · rw [max_eq_left h, max_eq_left (mul_le_mul_of_nonneg_left h hc)]

theorem listMinD_map_mul (c : ℚ) (hc : 0 ≤ c) (d : ℚ) (l : List ℚ) (hl : l ≠ []) :
    listMinD d (l.map (fun q => c * q)) = c * listMinD d l := by
  induction l with
  | nil => exact absurd rfl hl
  | cons x xs ih =>
      cases xs with
      | nil => simp [listMinD]
      | cons y ys =>
          rw [List.map_cons, List.map_cons, listMinD, ← List.map_cons,
            ih (by simp), listMinD, mul_min_q _ _ _ hc]

theorem listMaxD_map_mul (c : ℚ) (hc : 0 ≤ c) (d : ℚ) (l : List ℚ) (hl : l ≠ []) :
    listMaxD d (l.map (fun q => c * q)) = c * listMaxD d l := by
  induction l with
  | nil => exact absurd rfl hl
  | cons x xs ih =>
      cases xs with
      | nil => simp [listMaxD]
      | cons y ys =>
          rw [List.map_cons, List.map_cons, listMaxD, ← List.map_cons,
            ih (by simp), listMaxD, mul_max_q _ _ _ hc]

theorem avgQueue_map_scale (c : ℚ) (stats : List Stat) :
    (stats.map (scaleStat c)).map (fun s => s.avgQueue) =
      (stats.map (fun s => s.avgQueue)).map (fun x => (JSNum.fin c).mul x) := by
  rw [List.map_map, List.map_map]
  rfl

theorem avgExec_map_scale (c : ℚ) (stats : List Stat) :
    (stats.map (scaleStat c)).map (fun s => s.avgExec) =
      (stats.map (fun s => s.avgExec)).map (fun x => (JSNum.fin c).mul x) := by
  rw [List.map_map, List.map_map]
  rfl

theorem minQueueOf_scale (c : ℚ) (hc : 0 < c) (stats : List Stat) :
    minQueueOf (stats.map (scaleStat c)) = c * minQueueOf stats := by
  rw [minQueueOf, minQueueOf, avgQueue_map_scale, finVals_mul_fin c hc,
    foldr_min_eq, foldr_min_eq]
  cases hv : finVals (stats.map (fun s => s.avgQueue)) with
  | nil => simp [listMinD]
  | cons x xs =>
      rw [listMinD_map_mul c (le_of_lt hc) _ _ (by simp), mul_min_q _ _ _ (le_of_lt hc),
        mul_zero]

theorem minExecOf_scale (c : ℚ) (hc : 0 < c) (stats : List Stat) :
    minExecOf (stats.map (scaleStat c)) = c * minExecOf stats := by
  rw [minExecOf, minExecOf, avgExec_map_scale, finVals_mul_fin c hc,
    foldr_min_eq, foldr_min_eq]
  cases hv : finVals (stats.map (fun s => s.avgExec)) with
  | nil => simp [listMinD]
  | cons x xs =>
      rw [listMinD_map_mul c (le_of_lt hc) _ _ (by simp), mul_min_q _ _ _ (le_of_lt hc),
        mul_zero]

theorem maxQueueOf_scale (c : ℚ) (hc : 0 < c) (stats : List Stat)
    (hne : finVals (stats.map (fun s => s.avgQueue)) ≠ [])
    (h1 : 1 ≤ listMaxD 1 (finVals (stats.map (fun s => s.avgQueue))))
    (h2 : 1 ≤ c * listMaxD 1 (finVals (stats.map (fun s => s.avgQueue)))) :
    maxQueueOf (stats.map (scaleStat c)) = c * maxQueueOf stats := by
  rw [maxQueueOf, maxQueueOf, avgQueue_map_scale, finVals_mul_fin c hc,
    foldr_max_eq, foldr_max_eq, listMaxD_map_mul c (le_of_lt hc) _ _ hne,
    max_eq_right h1, max_eq_right h2]

theorem maxExecOf_scale (c : ℚ) (hc : 0 < c) (stats : List Stat)
    (hne : finVals (stats.map (fun s => s.avgExec)) ≠ [])
    (h1 : 1 ≤ listMaxD 1 (finVals (stats.map (fun s => s.avgExec))))
    (h2 : 1 ≤ c * listMaxD 1 (finVals (stats.map (fun s => s.avgExec)))) :
    maxExecOf (stats.map (scaleStat c)) = c * maxExecOf stats := by
  rw [maxExecOf, maxExecOf, avgExec_map_scale, finVals_mul_fin c hc,
    foldr_max_eq, foldr_max_eq, listMaxD_map_mul c (le_of_lt hc) _ _ hne,
    max_eq_right h1, max_eq_right h2]

theorem isFiniteB_mul_fin (c : ℚ) (hc : 0 < c) (x : JSNum) :
    ((JSNum.fin c).mul x).isFiniteB = x.isFiniteB := by
  cases x <;> simp [JSNum.mul, JSNum.isFiniteB, hc]

theorem not_isFiniteB_of_finVals_nil (l : List JSNum) (h : finVals l = []) :
    ∀ x ∈ l, x.isFiniteB = false := by
  intro x hx
  cases x with
  | fin q =>
      exfalso
      have : q ∈ finVals l := by
        rw [finVals, List.mem_filterMap]
        exact ⟨JSNum.fin q, hx, rfl⟩
      rw [h] at this
      exact absurd this (List.not_mem_nil _)
  | nan => rfl
  | inf => rfl
  | ninf => rfl

theorem queueNOf_scale (c : ℚ) (hc : 0 < c) (stats : List Stat)
    (hq : finVals (stats.map (fun s => s.avgQueue)) = [] ∨
      (1 ≤ listMaxD 1 (finVals (stats.map (fun s => s.avgQueue))) ∧
       1 ≤ c * listMaxD 1 (finVals (stats.map (fun s => s.avgQueue)))))
    (s : Stat) (hs : s ∈ stats) :
    queueNOf (stats.map (scaleStat c)) (scaleStat c s) = queueNOf stats s := by
  by_cases hnil : finVals (stats.map (fun s => s.avgQueue)) = []
  · have hsf : s.avgQueue.isFiniteB = false :=
      not_isFiniteB_of_finVals_nil _ hnil s.avgQueue (List.mem_map_of_mem _ hs)
    have hsf2 : (scaleStat c s).avgQueue.isFiniteB = false := by
      show ((JSNum.fin c).mul s.avgQueue).isFiniteB = false
      rw [isFiniteB_mul_fin c hc, hsf]
    rw [queueNOf, queueNOf, if_neg (by rw [hsf2]; rintro ⟨h, _⟩; exact Bool.noConfusion h),
      if_neg (by rw [hsf]; rintro ⟨h, _⟩; exact Bool.noConfusion h)]
  · rcases hq.resolve_left hnil with ⟨h1, h2⟩
    have hmin := minQueueOf_scale c hc stats
    have hmax := maxQueueOf_scale c hc stats hnil h1 h2
    rw [queueNOf, queueNOf, hmin, hmax]
    cases hx : s.avgQueue with
    | fin q =>
        have hxs : (scaleStat c s).avgQueue = JSNum.fin (c * q) := by
          show (JSNum.fin c).mul s.avgQueue = _
          rw [hx]
          rfl
        rw [hxs]
        by_cases hd : maxQueueOf stats ≠ minQueueOf stats
        · rw [if_pos ⟨rfl, by
              intro hcontra
              exact hd (mul_left_cancel₀ (ne_of_gt hc) hcontra)⟩,
            if_pos ⟨rfl, hd⟩]
          show 1 - (c * q - c * minQueueOf stats) / (c * maxQueueOf stats - c * minQueueOf stats)
            = 1 - (JSNum.toQ (JSNum.fin q) - minQueueOf stats) /
              (maxQueueOf stats - minQueueOf stats)
          rw [← mul_sub, ← mul_sub, mul_div_mul_left _ _ (ne_of_gt hc)]
          rfl
        · rw [not_not] at hd
          rw [if_neg (by rw [hd]; rintro ⟨_, h⟩; exact h rfl),
            if_neg (by rw [hd]; rintro ⟨_, h⟩; exact h rfl)]
    | nan =>
        have hxs : (scaleStat c s).avgQueue = JSNum.nan := by
          show (JSNum.fin c).mul s.avgQueue = _
          rw [hx]
          rfl
        rw [hxs, if_neg (by rintro ⟨h, _⟩; exact Bool.noConfusion h),
          if_neg (by rintro ⟨h, _⟩; exact Bool.noConfusion h)]
    | inf =>
        have hxs : (scaleStat c s).avgQueue = JSNum.inf := by
          show (JSNum.fin c).mul s.avgQueue = _
          rw [hx]
          simp [JSNum.mul, hc]
        rw [hxs, if_neg (by rintro ⟨h, _⟩; exact Bool.noConfusion h),
          if_neg (by rintro ⟨h, _⟩; exact Bool.noConfusion h)]
    | ninf =>
        have hxs : (scaleStat c s).avgQueue = JSNum.ninf := by
          show (JSNum.fin c).mul s.avgQueue = _
          rw [hx]
          simp [JSNum.mul, hc]
        rw [hxs, if_neg (by rintro ⟨h, _⟩; exact Bool.noConfusion h),
          if_neg (by rintro ⟨h, _⟩; exact Bool.noConfusion h)]

theorem execNOf_scale (c : ℚ) (hc : 0 < c) (stats : List Stat)
    (he : finVals (stats.map (fun s => s.avgExec)) = [] ∨
      (1 ≤ listMaxD 1 (finVals (stats.map (fun s => s.avgExec))) ∧
       1 ≤ c * listMaxD 1 (finVals (stats.map (fun s => s.avgExec)))))
    (s : Stat) (hs : s ∈ stats) :
    execNOf (stats.map (scaleStat c)) (scaleStat c s) = execNOf stats s := by
  by_cases hnil : finVals (stats.map (fun s => s.avgExec)) = []
  · have hsf : s.avgExec.isFiniteB = false :=
      not_isFiniteB_of_finVals_nil _ hnil s.avgExec (List.mem_map_of_mem _ hs)
    have hsf2 : (scaleStat c s).avgExec.isFiniteB = false := by
      show ((JSNum.fin c).mul s.avgExec).isFiniteB = false
      rw [isFiniteB_mul_fin c hc, hsf]
    rw [execNOf, execNOf, if_neg (by rw [hsf2]; rintro ⟨h, _⟩; exact Bool.noConfusion h),
      if_neg (by rw [hsf]; rintro ⟨h, _⟩; exact Bool.noConfusion h)]
  · rcases he.resolve_left hnil with ⟨h1, h2⟩
    have hmin := minExecOf_scale c hc stats
    have hmax := maxExecOf_scale c hc stats hnil h1 h2
    rw [execNOf, execNOf, hmin, hmax]
    cases hx : s.avgExec with
    | fin q =>
        have hxs : (scaleStat c s).avgExec = JSNum.fin (c * q) := by
          show (JSNum.fin c).mul s.avgExec = _
          rw [hx]
          rfl
        rw [hxs]
        by_cases hd : maxExecOf stats ≠ minExecOf stats
        · rw [if_pos ⟨rfl, by
              intro hcontra
              exact hd (mul_left_cancel₀ (ne_of_gt hc) hcontra)⟩,
            if_pos ⟨rfl, hd⟩]
          show 1 - (c * q - c * minExecOf stats) / (c * maxExecOf stats - c * minExecOf stats)
            = 1 - (JSNum.toQ (JSNum.fin q) - minExecOf stats) /
              (maxExecOf stats - minExecOf stats)
          rw [← mul_sub, ← mul_sub, mul_div_mul_left _ _ (ne_of_gt hc)]
          rfl
        · rw [not_not] at hd
          rw [if_neg (by rw [hd]; rintro ⟨_, h⟩; exact h rfl),
            if_neg (by rw [hd]; rintro ⟨_, h⟩; exact h rfl)]
    | nan =>
        have hxs : (scaleStat c s).avgExec = JSNum.nan := by
          show (JSNum.fin c).mul s.avgExec = _
          rw [hx]
          rfl
        rw [hxs, if_neg (by rintro ⟨h, _⟩; exact Bool.noConfusion h),
          if_neg (by rintro ⟨h, _⟩; exact Bool.noConfusion h)]
    | inf =>
        have hxs : (scaleStat c s).avgExec = JSNum.inf := by
          show (JSNum.fin c).mul s.avgExec = _
          rw [hx]
          simp [JSNum.mul, hc]
        rw [hxs, if_neg (by rintro ⟨h, _⟩; exact Bool.noConfusion h),
          if_neg (by rintro ⟨h, _⟩; exact Bool.noConfusion h)]
    | ninf =>
        have hxs : (scaleStat c s).avgExec = JSNum.ninf := by
          show (JSNum.fin c).mul s.avgExec = _
          rw [hx]
          simp [JSNum.mul, hc]
        rw [hxs, if_neg (by rintro ⟨h, _⟩; exact Bool.noConfusion h),
          if_neg (by rintro ⟨h, _⟩; exact Bool.noConfusion h)]

theorem successNOf_scale (c : ℚ) (stats : List Stat) (s : Stat) :
    successNOf (stats.map (scaleStat c)) (scaleStat c s) = successNOf stats s := by
  have hm : maxSuccessOf (stats.map (scaleStat c)) = maxSuccessOf stats := by
    rw [maxSuccessOf, maxSuccessOf, List.map_map]
    rfl
  rw [successNOf, successNOf, hm]
  rfl

theorem scoreOf_scale (w : Weights) (c : ℚ) (hc : 0 < c) (stats : List Stat)
    (hq : finVals (stats.map (fun s => s.avgQueue)) = [] ∨
      (1 ≤ listMaxD 1 (finVals (stats.map (fun s => s.avgQueue))) ∧
       1 ≤ c * listMaxD 1 (finVals (stats.map (fun s => s.avgQueue)))))
    (he : finVals (stats.map (fun s => s.avgExec)) = [] ∨
      (1 ≤ listMaxD 1 (finVals (stats.map (fun s => s.avgExec))) ∧
       1 ≤ c * listMaxD 1 (finVals (stats.map (fun s => s.avgExec)))))
    (s : Stat) (hs : s ∈ stats) :
    scoreOf w (stats.map (scaleStat c)) (scaleStat c s) = scoreOf w stats s := by
  rw [scoreOf, scoreOf, successNOf_scale, queueNOf_scale c hc stats hq s hs,
    execNOf_scale c hc stats he s hs]

/-- Comparator of the projected `(backend, score)` pairs. -/
def pairDescLt (x y : String × ℚ) : Bool := decide (y.2 < x.2)

/-- Claim C4 (amended, proved).  Scaling every per-backend average queue and
exec value by a positive constant `c` leaves the ranking order unchanged,
provided each of the two families of finite averages is either empty or has
its maximum at least `1` both before and after scaling (so that the literal
`1` injected into `Math.max(...finite, 1)` is inert; the counterexample
shows the condition is needed).  `recommendBackends env jobs w` is by
definition `sortJS scoredDescLt (scoreStats w (mkStats env jobs))`, so this
is the ranking statement at the level of the per-backend statistics. -/
theorem recommend_rank_scale (w : Weights) (c : ℚ) (hc : 0 < c) (stats : List Stat)
    (hq : finVals (stats.map (fun s => s.avgQueue)) = [] ∨
      (1 ≤ listMaxD 1 (finVals (stats.map (fun s => s.avgQueue))) ∧
       1 ≤ c * listMaxD 1 (finVals (stats.map (fun s => s.avgQueue)))))
    (he : finVals (stats.map (fun s => s.avgExec)) = [] ∨
      (1 ≤ listMaxD 1 (finVals (stats.map (fun s => s.avgExec))) ∧
       1 ≤ c * listMaxD 1 (finVals (stats.map (fun s => s.avgExec))))) :
    (sortJS scoredDescLt (scoreStats w (stats.map (scaleStat c)))).map (fun r => r.backend) =
      (sortJS scoredDescLt (scoreStats w stats)).map (fun r => r.backend) := by
  have hpair : ∀ a b : Scored,
      pairDescLt ((fun r => (r.backend, r.score)) a) ((fun r => (r.backend, r.score)) b) =
        scoredDescLt a b := fun a b => rfl
  have hmap : (scoreStats w (stats.map (scaleStat c))).map (fun r => (r.backend, r.score)) =
      (scoreStats w stats).map (fun r => (r.backend, r.score)) := by
    rw [scoreStats, scoreStats, List.map_map, List.map_map, List.map_map]
    refine List.map_congr_left ?_
    intro s hs
    show ((scaleStat c s).backend, scoreOf w (stats.map (scaleStat c)) (scaleStat c s)) = _
    rw [scoreOf_scale w c hc stats hq he s hs]
    rfl
  have hfst : ∀ l : List Scored, l.map (fun r => r.backend) =
      (l.map (fun r => (r.backend, r.score))).map Prod.fst := by
    intro l
    rw [List.map_map]
    rfl
  rw [hfst, hfst, ← sortJS_map (fun r => (r.backend, r.score)) scoredDescLt pairDescLt hpair,
    ← sortJS_map (fun r => (r.backend, r.score)) scoredDescLt pairDescLt hpair, hmap]

/-- Witness stats for the amended C4 theorem. -/
def statsWit : List Stat :=
  [⟨"A", 1, JSNum.fin 1, JSNum.fin 1, 1⟩, ⟨"B", 1/2, JSNum.fin 2, JSNum.fin 1, 1⟩]

/-- Witness for the amended C4 theorem at concrete stats and `c = 2`. -/
theorem recommend_rank_scale_witness :
    (sortJS scoredDescLt (scoreStats defaultWeights (statsWit.map (scaleStat 2)))).map
        (fun r => r.backend) =
      (sortJS scoredDescLt (scoreStats defaultWeights statsWit)).map (fun r => r.backend) :=
  recommend_rank_scale defaultWeights 2 (by norm_num) statsWit
    (Or.inr ⟨of_decide_eq_true (by with_unfolding_all rfl),
      of_decide_eq_true (by with_unfolding_all rfl)⟩)
    (Or.inr ⟨of_decide_eq_true (by with_unfolding_all rfl),
      of_decide_eq_true (by with_unfolding_all rfl)⟩)

/-! ## C7: the stuck-job detector -/

theorem foldl_append_eq (g : β → List γ) (l : List β) (acc : List γ) :
    l.foldl (fun acc b => acc ++ g b) acc = acc ++ l.flatMap g := by
  induction l generalizing acc with
  | nil => simp
  | cons b bs ih =>
      rw [List.foldl_cons, ih, List.flatMap_cons, List.append_assoc]

theorem stuckAnoms_eq_bind (ds : List JobDurations) :
    stuckAnoms ds = (groupQueues ds).flatMap
      (fun p => if p.2.length < 8 then [] else stuckBlock ds p.1 p.2) := by
  rw [stuckAnoms]
  have hfun : (fun (anomalies : List Anomaly) (p : String × List JSNum) =>
      if p.2.length < 8 then anomalies else anomalies ++ stuckBlock ds p.1 p.2) =
      (fun anomalies p =>
        anomalies ++ (if p.2.length < 8 then [] else stuckBlock ds p.1 p.2)) := by
    funext anomalies p
    by_cases h : p.2.length < 8 <;> simp [h]
  rw [hfun, foldl_append_eq, List.nil_append]

theorem fcAnoms_eq_bind (jobs : List Job) :
    fcAnoms jobs = (dedupFirst (jobs.map normBackend)).flatMap (fcBlock jobs) := by
  rw [fcAnoms, foldl_append_eq, List.nil_append]

theorem fcCond_iff (jobs : List Job) (b : String) :
    fcCond jobs b ↔ (10 ≤ (fcWindow jobs b).length ∧
      (1 : ℚ)/2 ≤ (((fcWindow jobs b).filter (fun j => j.status == "FAILED")).length : ℚ) /
        ((fcWindow jobs b).length : ℚ)) := Iff.rfl

theorem mem_fcBlock (jobs : List Job) (b : String) (a : Anomaly) :
    a ∈ fcBlock jobs b ↔ fcCond jobs b ∧
      ∃ j, (fcWindow jobs b).getLast? = some j ∧
        a = Anomaly.mk j.job_id AnomalyType.failure_cluster b := by
  rw [fcBlock]
  by_cases h1 : 10 ≤ (fcWindow jobs b).length
  · rw [if_pos h1]
    by_cases h2 : (1 : ℚ)/2 ≤
        (((fcWindow jobs b).filter (fun j => j.status == "FAILED")).length : ℚ) /
          ((fcWindow jobs b).length : ℚ)
    · rw [if_pos h2]
      rcases hlast : (fcWindow jobs b).getLast? with _ | j
      · constructor
        · intro ha
          exact absurd ha (List.not_mem_nil _)
        · rintro ⟨_, j, hj, _⟩
          exact Option.noConfusion hj
      · constructor
        · intro ha
          rcases List.mem_singleton.mp ha with rfl
          exact ⟨(fcCond_iff jobs b).mpr ⟨h1, h2⟩, j, rfl, rfl⟩
        · rintro ⟨_, j2, hj2, rfl⟩
          rcases Option.some_injective _ hj2 with rfl
          exact List.mem_singleton.mpr rfl
    · rw [if_neg h2]
      constructor
      · intro ha
        exact absurd ha (List.not_mem_nil _)
      · rintro ⟨hc, _⟩
        exact absurd ((fcCond_iff jobs b).mp hc).2 h2
  · rw [if_neg h1]
    constructor
    · intro ha
      exact absurd ha (List.not_mem_nil _)
    · rintro ⟨hc, _⟩
      exact absurd ((fcCond_iff jobs b).mp hc).1 h1

theorem mem_fcAnoms_type (jobs : List Job) (a : Anomaly) (h : a ∈ fcAnoms jobs) :
    a.type = AnomalyType.failure_cluster := by
  rw [fcAnoms_eq_bind] at h
  rcases List.mem_flatMap.mp h with ⟨b, _, ha⟩
  rcases (mem_fcBlock jobs b a).mp ha with ⟨_, j, _, rfl⟩
  rfl

theorem mem_stuckBlock (ds : List JobDurations) (b : String) (arr : List JSNum) (a : Anomaly) :
    a ∈ stuckBlock ds b arr ↔ ∃ d, d ∈ ds ∧ d.backend = b ∧
      stuckFlag d.queueSec (jsMean arr) (jsVariance arr) = true ∧
      a = Anomaly.mk d.job_id AnomalyType.stuck b := by
  rw [stuckBlock, List.mem_filterMap]
  constructor
  · rintro ⟨d, hd, hf⟩
    rw [List.mem_filter] at hd
    split_ifs at hf with hflag
    exact ⟨d, hd.1, by simpa using hd.2, hflag, (Option.some_injective _ hf).symm⟩
  · rintro ⟨d, hd, hdb, hflag, rfl⟩
    refine ⟨d, List.mem_filter.mpr ⟨hd, by simpa using hdb⟩, ?_⟩
    rw [if_pos hflag]

theorem mem_stuckAnoms (ds : List JobDurations) (a : Anomaly) :
    a ∈ stuckAnoms ds ↔
      8 ≤ (sampleQ ds a.backend).length ∧ a.type = AnomalyType.stuck ∧
      ∃ d, d ∈ ds ∧ d.backend = a.backend ∧
        stuckFlag d.queueSec (jsMean (sampleQ ds a.backend))
          (jsVariance (sampleQ ds a.backend)) = true ∧
        a.job_id = d.job_id := by
  rw [stuckAnoms_eq_bind, groupQueues_eq, List.mem_flatMap]
  constructor
  · rintro ⟨p, hp, ha⟩
    rcases List.mem_map.mp hp with ⟨b, hb, rfl⟩
    split_ifs at ha with hlen
    · exact absurd ha (List.not_mem_nil _)
    · rcases (mem_stuckBlock ds b _ a).mp ha with ⟨d, hd, hdb, hflag, rfl⟩
      exact ⟨not_lt.mp hlen, rfl, d, hd, hdb, hflag, rfl⟩
  · rintro ⟨hlen, htype, d, hd, hdb, hflag, hid⟩
    have hmemb : a.backend ∈ ds.map (fun d => d.backend) := by
      rw [← hdb]
      exact List.mem_map_of_mem _ hd
    refine ⟨(a.backend, sampleQ ds a.backend),
      List.mem_map.mpr ⟨a.backend, (mem_dedupFirst _ _).mpr hmemb, rfl⟩, ?_⟩
    rw [if_neg (not_lt.mpr hlen)]
    refine (mem_stuckBlock ds a.backend _ a).mpr ⟨d, hd, hdb, hflag, ?_⟩
    cases a
    simp only at htype hid
    rw [htype, hid]

theorem foldl_add_map_fin (l : List ℚ) (a : ℚ) :
    (l.map JSNum.fin).foldl JSNum.add (JSNum.fin a) = JSNum.fin (a + l.sum) := by
  induction l generalizing a with
  | nil => simp
  | cons x xs ih =>
      rw [List.map_cons, List.foldl_cons,
        show JSNum.add (JSNum.fin a) (JSNum.fin x) = JSNum.fin (a + x) from rfl, ih,
        List.sum_cons]
      exact congrArg JSNum.fin (by ring)

theorem jsum_map_fin (l : List ℚ) : JSNum.jsum (l.map JSNum.fin) = JSNum.fin l.sum := by
  rw [JSNum.jsum, foldl_add_map_fin, zero_add]

theorem length_ne_zero_cast (l : List ℚ) (hl : l ≠ []) : ((l.length : ℚ)) ≠ 0 := by
  rw [Nat.cast_ne_zero]
  intro h
  exact hl (List.length_eq_zero.mp h)

theorem jsMean_map_fin (l : List ℚ) (hl : l ≠ []) :
    jsMean (l.map JSNum.fin) = JSNum.fin (popMean l) := by
  rw [jsMean, jsum_map_fin, List.length_map,
    JSNum.div_fin_fin _ _ (length_ne_zero_cast l hl), popMean]

theorem foldl_sq_map_fin (l : List ℚ) (m a : ℚ) :
    (l.map JSNum.fin).foldl
      (fun acc b => acc.add ((b.sub (JSNum.fin m)).mul (b.sub (JSNum.fin m))))
      (JSNum.fin a) = JSNum.fin (a + (l.map (fun x => (x - m) * (x - m))).sum) := by
  induction l generalizing a with
  | nil => simp
  | cons x xs ih =>
      rw [List.map_cons, List.foldl_cons, JSNum.sub_fin_fin,
        show (JSNum.fin (x - m)).mul (JSNum.fin (x - m)) = JSNum.fin ((x - m) * (x - m))
          from rfl,
        show (JSNum.fin a).add (JSNum.fin ((x - m) * (x - m))) =
          JSNum.fin (a + (x - m) * (x - m)) from rfl,
        ih, List.map_cons, List.sum_cons]
      exact congrArg JSNum.fin (by ring)

theorem jsVariance_map_fin (l : List ℚ) (hl : l ≠ []) :
    jsVariance (l.map JSNum.fin) = JSNum.fin (popVar l) := by
  have hmaps : (l.map (fun x => (x - popMean l) * (x - popMean l))) =
      l.map (fun x => (x - popMean l) ^ 2) :=
    List.map_congr_left (fun x _ => by ring)
  rw [jsVariance, jsMean_map_fin l hl, foldl_sq_map_fin, zero_add, List.length_map,
    JSNum.div_fin_fin _ _ (length_ne_zero_cast l hl), hmaps, popVar]

theorem popVar_nonneg (l : List ℚ) : 0 ≤ popVar l := by
  rw [popVar]
  apply div_nonneg
  · apply List.sum_nonneg
    intro x hx
    rcases List.mem_map.mp hx with ⟨y, _, rfl⟩
    positivity
  · positivity

theorem map_toQ_fin (l : List JSNum) (h : ∀ x ∈ l, x.isFiniteB = true) :
    (l.map JSNum.toQ).map JSNum.fin = l := by
  induction l with
  | nil => rfl
  | cons x xs ih =>
      have hx := h x (List.mem_cons_self _ _)
      cases x with
      | fin q =>
          rw [List.map_cons, List.map_cons, ih (fun y hy => h y (List.mem_cons_of_mem _ hy))]
          rfl
      | nan => exact absurd hx (by simp [JSNum.isFiniteB])
      | inf => exact absurd hx (by simp [JSNum.isFiniteB])
      | ninf => exact absurd hx (by simp [JSNum.isFiniteB])

/-- The executable stuck test agrees with the specification's real-valued
z-score formula (`std = sqrt(variance)`, floored to `1` on zero variance). -/
theorem stuckFlag_iff_real (q m v : ℚ) (hv : 0 ≤ v) :
    stuckFlag (JSNum.fin q) (JSNum.fin m) (JSNum.fin v) = true ↔
      (5/2 : ℝ) < ((q : ℝ) - (m : ℝ)) /
        (if v = 0 then 1 else Real.sqrt ((v : ℚ) : ℝ)) := by
  by_cases hv0 : v = 0
  · subst hv0
    rw [stuckFlag, if_neg (lt_irrefl 0), if_pos rfl, JSNum.sub_fin_fin, JSNum.jsGtC]
    rw [decide_eq_true_eq, div_one]
    constructor
    · intro h
      have : ((5/2 : ℚ) : ℝ) < ((q - m : ℚ) : ℝ) := by exact_mod_cast h
      push_cast at this
      linarith
    · intro h
      have : ((5/2 : ℚ) : ℝ) < ((q - m : ℚ) : ℝ) := by push_cast; linarith
      exact_mod_cast this
  · have hvpos : 0 < v := lt_of_le_of_ne hv (Ne.symm hv0)
    rw [stuckFlag, if_pos hvpos, JSNum.sub_fin_fin, if_neg hv0]
    have hvR : (0 : ℝ) < (v : ℝ) := by exact_mod_cast hvpos
    have hs : (0 : ℝ) < Real.sqrt (v : ℝ) := Real.sqrt_pos.mpr hvR
    have hs2 : Real.sqrt (v : ℝ) ^ 2 = (v : ℝ) := Real.sq_sqrt (le_of_lt hvR)
    rw [Bool.and_eq_true, decide_eq_true_eq, decide_eq_true_eq, lt_div_iff₀ hs]
    constructor
    · rintro ⟨h1, h2⟩
      have hd : (0 : ℝ) < (q : ℝ) - m := by
        have : ((0 : ℚ) : ℝ) < ((q - m : ℚ) : ℝ) := by exact_mod_cast h1
        push_cast at this
        linarith
      have h2r : (25/4 : ℝ) * v < ((q : ℝ) - m) ^ 2 := by
        have : ((25/4 * v : ℚ) : ℝ) < (((q - m) ^ 2 : ℚ) : ℝ) := by exact_mod_cast h2
        push_cast at this
        linarith
      nlinarith [hs, hs2, hd, h2r]
    · intro h
      have hd : (0 : ℝ) < (q : ℝ) - m := lt_trans (by positivity) h
      constructor
      · have : ((0 : ℚ) : ℝ) < ((q - m : ℚ) : ℝ) := by push_cast; linarith
        exact_mod_cast this
      · have h2r : (25/4 : ℝ) * v < ((q : ℝ) - m) ^ 2 := by nlinarith [hs, hs2]
        have : ((25/4 * v : ℚ) : ℝ) < (((q - m) ^ 2 : ℚ) : ℝ) := by push_cast; nlinarith
        exact_mod_cast this

/-- Claim C7 (confirmed).  A backend with fewer than eight duration records
never yields a `stuck` anomaly, whatever its queue times; and for a backend
whose queue-time sample is made of (finite) numbers, a `stuck` anomaly for
job `id` is emitted exactly when the sample has at least eight values and
some duration record of that backend and job has z-score above 2.5, where
the z-score uses the population mean and population standard deviation with
the standard deviation replaced by `1` when the variance is zero. -/
theorem detectAnomalies_stuck (env : ParseEnv) (jobs : List Job) (b id : String) :
    ((sampleQ (computeDurations env jobs) b).length < 8 →
      Anomaly.mk id AnomalyType.stuck b ∉ detectAnomalies env jobs) ∧
    ((∀ x ∈ sampleQ (computeDurations env jobs) b, x.isFiniteB = true) →
      (Anomaly.mk id AnomalyType.stuck b ∈ detectAnomalies env jobs ↔
        8 ≤ (sampleQ (computeDurations env jobs) b).length ∧
        ∃ d ∈ computeDurations env jobs, d.backend = b ∧ d.job_id = id ∧
          (5/2 : ℝ) < ((d.queueSec.toQ : ℝ) - ((popMean (sampleVals env jobs b) : ℚ) : ℝ)) /
            (if popVar (sampleVals env jobs b) = 0 then 1
             else Real.sqrt ((popVar (sampleVals env jobs b) : ℚ) : ℝ)))) := by
  have hmem : ∀ a : Anomaly, a.type = AnomalyType.stuck →
      (a ∈ detectAnomalies env jobs ↔ a ∈ stuckAnoms (computeDurations env jobs)) := by
    intro a ha
    rw [detectAnomalies, List.mem_append]
    constructor
    · rintro (h | h)
      · exact h
      · rw [mem_fcAnoms_type jobs a h] at ha
        exact absurd ha (by intro hcontra; exact AnomalyType.noConfusion hcontra)
    · exact Or.inl
  constructor
  · intro hlt hin
    rcases (mem_stuckAnoms _ _).mp ((hmem _ rfl).mp hin) with ⟨hlen, _⟩
    exact absurd hlen (not_le.mpr hlt)
  · intro hfin
    rw [hmem _ rfl, mem_stuckAnoms]
    have hsample : (sampleVals env jobs b).map JSNum.fin = sampleQ (computeDurations env jobs) b :=
      map_toQ_fin _ hfin
    constructor
    · rintro ⟨hlen, _, d, hd, hdb, hflag, hid⟩
      refine ⟨hlen, d, hd, hdb, hid.symm, ?_⟩
      have hLne : sampleVals env jobs b ≠ [] := by
        intro hnil
        rw [← hsample, hnil] at hlen
        simp at hlen
      have hdq : d.queueSec = JSNum.fin d.queueSec.toQ := by
        have hdmem : d.queueSec ∈ sampleQ (computeDurations env jobs) b := by
          refine List.mem_map_of_mem _ (List.mem_filter.mpr ⟨hd, by simpa using hdb⟩)
        have := hfin _ hdmem
        cases hq : d.queueSec
        all_goals rw [hq] at this
        · exact absurd this (by simp [JSNum.isFiniteB])
        · exact absurd this (by simp [JSNum.isFiniteB])
        · exact absurd this (by simp [JSNum.isFiniteB])
        · rfl
      rw [← hsample, jsMean_map_fin _ hLne, jsVariance_map_fin _ hLne, hdq] at hflag
      exact (stuckFlag_iff_real _ _ _ (popVar_nonneg _)).mp hflag
    · rintro ⟨hlen, d, hd, hdb, hid, hreal⟩
      have hLne : sampleVals env jobs b ≠ [] := by
        intro hnil
        rw [← hsample, hnil] at hlen
        simp at hlen
      have hdq : d.queueSec = JSNum.fin d.queueSec.toQ := by
        have hdmem : d.queueSec ∈ sampleQ (computeDurations env jobs) b := by
          refine List.mem_map_of_mem _ (List.mem_filter.mpr ⟨hd, by simpa using hdb⟩)
        have := hfin _ hdmem
        cases hq : d.queueSec
        all_goals rw [hq] at this
        · exact absurd this (by simp [JSNum.isFiniteB])
        · exact absurd this (by simp [JSNum.isFiniteB])
        · exact absurd this (by simp [JSNum.isFiniteB])
        · rfl
      refine ⟨hlen, rfl, d, hd, hdb, ?_, hid.symm⟩
      rw [← hsample, jsMean_map_fin _ hLne, jsVariance_map_fin _ hLne, hdq]
      exact (stuckFlag_iff_real _ _ _ (popVar_nonneg _)).mpr hreal

/-- Witness for C7 at a concrete input: backend `"A"` has a single duration
record, so no stuck anomaly can name it. -/
theorem detectAnomalies_stuck_witness :
    Anomaly.mk "w1" AnomalyType.stuck "A" ∉ detectAnomalies envW jobsW :=
  (detectAnomalies_stuck envW jobsW "A" "w1").1
    (of_decide_eq_true (by with_unfolding_all rfl))

/-! ## C8: the failure-cluster detector -/

theorem countP_flatMap (l : List β) (g : β → List γ) (p : γ → Bool) :
    ((l.flatMap g).countP p) = (l.map (fun b => (g b).countP p)).sum := by
  induction l with
  | nil => rfl
  | cons b bs ih =>
      rw [List.flatMap_cons, List.countP_append, ih, List.map_cons, List.sum_cons]

theorem sum_map_ite_eq (B : List String) (hB : B.Nodup) (b : String) (f : String → ℕ) :
    (B.map (fun x => if x = b then f x else 0)).sum = if b ∈ B then f b else 0 := by
  induction B with
  | nil => simp
  | cons x xs ih =>
      rcases List.nodup_cons.mp hB with ⟨hx, hxs⟩
      rw [List.map_cons, List.sum_cons, ih hxs]
      by_cases hxb : x = b
      · subst hxb
        rw [if_pos rfl, if_neg (fun hc => hx hc), if_pos (List.mem_cons_self _ _), Nat.add_zero]
      · rw [if_neg hxb, Nat.zero_add]
        by_cases hbxs : b ∈ xs
        · rw [if_pos hbxs, if_pos (List.mem_cons_of_mem _ hbxs)]
        · rw [if_neg hbxs, if_neg (fun hc => (List.mem_cons.mp hc).elim
            (fun he => hxb he.symm) hbxs)]

theorem stuckAnoms_type (ds : List JobDurations) (a : Anomaly) (h : a ∈ stuckAnoms ds) :
    a.type = AnomalyType.stuck :=
  ((mem_stuckAnoms ds a).mp h).2.1

theorem fcWindow_subset (jobs : List Job) (b : String) :
    fcWindow jobs b ⊆ jobs.filter (fun j => normBackend j == b) := by
  rw [fcWindow, lastN]
  exact List.drop_subset _ _

theorem fcCond_mem (jobs : List Job) (b : String) (h : fcCond jobs b) :
    b ∈ jobs.map normBackend := by
  have hlen := ((fcCond_iff jobs b).mp h).1
  have hne : fcWindow jobs b ≠ [] := by
    intro hnil
    rw [hnil] at hlen
    simp at hlen
  rcases List.exists_mem_of_ne_nil _ hne with ⟨j, hj⟩
  have hj2 := List.mem_filter.mp (fcWindow_subset jobs b hj)
  have hb : normBackend j = b := by simpa using hj2.2
  rw [← hb]
  exact List.mem_map_of_mem _ hj2.1

theorem fcBlock_eq_of_cond (jobs : List Job) (b : String) (j : Job)
    (hc : fcCond jobs b) (hj : (fcWindow jobs b).getLast? = some j) :
    fcBlock jobs b = [Anomaly.mk j.job_id AnomalyType.failure_cluster b] := by
  rw [fcBlock, if_pos ((fcCond_iff jobs b).mp hc).1, if_pos ((fcCond_iff jobs b).mp hc).2, hj]

theorem fcBlock_eq_nil (jobs : List Job) (b : String) (hc : ¬ fcCond jobs b) :
    fcBlock jobs b = [] := by
  rw [fcBlock]
  by_cases h1 : 10 ≤ (fcWindow jobs b).length
  · rw [if_pos h1, if_neg (fun h2 => hc ((fcCond_iff jobs b).mpr ⟨h1, h2⟩))]
  · rw [if_neg h1]

theorem getLast_some_of_cond (jobs : List Job) (b : String) (hc : fcCond jobs b) :
    ∃ j, (fcWindow jobs b).getLast? = some j := by
  have hlen := ((fcCond_iff jobs b).mp hc).1
  have hne : fcWindow jobs b ≠ [] := by
    intro hnil
    rw [hnil] at hlen
    simp at hlen
  rcases hsome : (fcWindow jobs b).getLast? with _ | j
  · exact absurd hsome (by simpa using hne)
  · exact ⟨j, rfl⟩

theorem countP_fcBlock (jobs : List Job) (b x : String) :
    (fcBlock jobs b).countP
      (fun a => a.type == AnomalyType.failure_cluster && a.backend == x) =
    if b = x ∧ fcCond jobs b then 1 else 0 := by
  by_cases hc : fcCond jobs b
  · rcases getLast_some_of_cond jobs b hc with ⟨j, hj⟩
    rw [fcBlock_eq_of_cond jobs b j hc hj]
    by_cases hbx : b = x
    · subst hbx
      rw [if_pos ⟨rfl, hc⟩]
      simp [List.countP_cons]
    · rw [if_neg (fun hand => hbx hand.1)]
      simp [List.countP_cons, hbx]
  · rw [fcBlock_eq_nil jobs b hc, if_neg (fun hand => hc hand.2)]
    rfl

/-- Claim C8 (confirmed).  For each backend `b`, `detectAnomalies` emits
exactly one `failure_cluster` anomaly naming `b` when the last-20 window of
`b`'s jobs (positional, in input order) has at least 10 jobs and a `FAILED`
fraction of at least one half, and none otherwise; the emitted anomaly is
attributed to the last job of the window. -/
theorem detectAnomalies_fc (env : ParseEnv) (jobs : List Job) (b : String) :
    ((detectAnomalies env jobs).countP
        (fun a => a.type == AnomalyType.failure_cluster && a.backend == b) =
      if fcCond jobs b then 1 else 0) ∧
    (∀ j, (fcWindow jobs b).getLast? = some j → fcCond jobs b →
      Anomaly.mk j.job_id AnomalyType.failure_cluster b ∈ detectAnomalies env jobs) := by
  constructor
  · rw [detectAnomalies, List.countP_append]
    have hstuck : (stuckAnoms (computeDurations env jobs)).countP
        (fun a => a.type == AnomalyType.failure_cluster && a.backend == b) = 0 := by
      rw [List.countP_eq_zero]
      intro a ha
      rw [stuckAnoms_type _ _ ha]
      simp
    rw [hstuck, Nat.zero_add, fcAnoms_eq_bind, countP_flatMap]
    have hmap : (dedupFirst (jobs.map normBackend)).map
        (fun b2 => (fcBlock jobs b2).countP
          (fun a => a.type == AnomalyType.failure_cluster && a.backend == b)) =
        (dedupFirst (jobs.map normBackend)).map
          (fun b2 => if b2 = b then (if fcCond jobs b2 then 1 else 0) else 0) := by
      refine List.map_congr_left ?_
      intro b2 _
      rw [countP_fcBlock jobs b2 b]
      by_cases hb2 : b2 = b
      · subst hb2
        by_cases hc : fcCond jobs b2
        · rw [if_pos ⟨rfl, hc⟩, if_pos rfl, if_pos hc]
        · rw [if_neg (fun hand => hc hand.2), if_pos rfl, if_neg hc]
      · rw [if_neg (fun hand => hb2 hand.1), if_neg hb2]
    rw [hmap, sum_map_ite_eq _ (nodup_dedupFirst _) b (fun b2 => if fcCond jobs b2 then 1 else 0)]
    by_cases hc : fcCond jobs b
    · rw [if_pos ((mem_dedupFirst _ _).mpr (fcCond_mem jobs b hc))]
    · by_cases hbm : b ∈ dedupFirst (jobs.map normBackend)
      · rw [if_pos hbm]
      · rw [if_neg hbm, if_neg hc]
  · intro j hj hc
    rw [detectAnomalies, List.mem_append]
    right
    rw [fcAnoms_eq_bind, List.mem_flatMap]
    exact ⟨b, (mem_dedupFirst _ _).mpr (fcCond_mem jobs b hc),
      (mem_fcBlock jobs b _).mpr ⟨hc, j, hj, rfl⟩⟩

/-- A job used by the failure-cluster witness input. -/
def jobF (id st : String) : Job :=
  { job_id := id, backend := "B", backend_type := none, status := st
    creation_time := "t0", end_time := none, execution_time := none }

/-- Witness input for C8: ten jobs on backend `"B"`, five of them failed. -/
def jobsF : List Job :=
  [jobF "f1" "FAILED", jobF "f2" "FAILED", jobF "f3" "FAILED", jobF "f4" "FAILED",
   jobF "f5" "FAILED", jobF "f6" "COMPLETED", jobF "f7" "COMPLETED", jobF "f8" "COMPLETED",
   jobF "f9" "COMPLETED", jobF "f10" "COMPLETED"]

/-- Witness for C8 at a concrete input: the anomaly is attributed to the
last job of the window. -/
theorem detectAnomalies_fc_witness :
    Anomaly.mk "f10" AnomalyType.failure_cluster "B" ∈ detectAnomalies envW jobsF :=
  (detectAnomalies_fc envW jobsF "B").2 (jobF "f10" "COMPLETED")
    (of_decide_eq_true (by with_unfolding_all rfl))
    (of_decide_eq_true (by with_unfolding_all rfl))

/-! ## C9: the analytics core is total -/

theorem waitP90Opt_eq (arr : List JSNum) (h : arr.length ≠ 0) :
    waitP90Opt arr = some ((sortJS jsAscLt arr).getD
      (p90Index (sortJS jsAscLt arr).length) (JSNum.fin 0)) := by
  have hidx : p90Index (sortJS jsAscLt arr).length < (sortJS jsAscLt arr).length := by
    rw [(sortJS_perm jsAscLt arr).length_eq]
    exact p90Index_lt _ (Nat.one_le_iff_ne_zero.mpr h)
  rw [waitP90Opt, List.getElem?_eq_getElem hidx, List.getD_eq_getElem?_getD,
    List.getElem?_eq_getElem hidx, Option.getD_some]

theorem estimateWaitTimesOpt_eq (env : ParseEnv) (jobs : List Job) :
    estimateWaitTimesOpt env jobs = some (estimateWaitTimesByBackend env jobs) := by
  rw [estimateWaitTimesOpt, estimateWaitTimesByBackend]
  suffices h : ∀ (groups : List (String × List JSNum)) (acc : List (String × WaitStats)),
      groups.foldl (fun result p => result.bind (fun res =>
        if p.2.length = 0 then some res
        else (waitP90Opt p.2).map (fun p90 => res ++ [(p.1, waitStatsWith p.2 p90)])))
        (some acc) =
      some (acc ++ groups.filterMap (fun p =>
        if p.2.length = 0 then none
        else some (p.1, waitStatsWith p.2 ((sortJS jsAscLt p.2).getD
          (p90Index (sortJS jsAscLt p.2).length) (JSNum.fin 0))))) by
    rw [h _ [], List.nil_append]
  intro groups
  induction groups with
  | nil =>
      intro acc
      simp
  | cons p ps ih =>
      intro acc
      rw [List.foldl_cons, List.filterMap_cons]
      by_cases hlen : p.2.length = 0
      · simp only [Option.some_bind, if_pos hlen]
        rw [ih acc]
      · rw [show (Option.bind (some acc) fun res =>
            if p.2.length = 0 then some res
            else Option.map (fun p90 => res ++ [(p.1, waitStatsWith p.2 p90)]) (waitP90Opt p.2)) =
            some (acc ++ [(p.1, waitStatsWith p.2 ((sortJS jsAscLt p.2).getD
              (p90Index (sortJS jsAscLt p.2).length) (JSNum.fin 0)))]) from by
          rw [Option.some_bind, if_neg hlen, waitP90Opt_eq p.2 hlen]
          rfl]
        rw [ih, List.append_assoc, List.singleton_append, if_neg hlen]

theorem detectAnomaliesOpt_eq (env : ParseEnv) (jobs : List Job) :
    detectAnomaliesOpt env jobs = some (detectAnomalies env jobs) := by
  rw [detectAnomaliesOpt, detectAnomalies, fcAnoms_eq_bind]
  suffices h : ∀ (B : List String) (acc : List Anomaly),
      B.foldl (fun acc2 b => acc2.bind (fun anomalies =>
        if 10 ≤ (fcWindow jobs b).length then
          if (1 : ℚ)/2 ≤ (((fcWindow jobs b).filter (fun j => j.status == "FAILED")).length : ℚ) /
              ((fcWindow jobs b).length : ℚ) then
            ((fcWindow jobs b).getLast?).map (fun j =>
              anomalies ++
                [{ job_id := j.job_id, type := AnomalyType.failure_cluster, backend := b }])
          else some anomalies
        else some anomalies)) (some acc) = some (acc ++ B.flatMap (fcBlock jobs)) by
    rw [h _ (stuckAnoms (computeDurations env jobs))]
  intro B
  induction B with
  | nil =>
      intro acc
      simp
  | cons b bs ih =>
      intro acc
      rw [List.foldl_cons, List.flatMap_cons]
      simp only [Option.some_bind]
      by_cases h1 : 10 ≤ (fcWindow jobs b).length
      · by_cases h2 : (1 : ℚ)/2 ≤
            (((fcWindow jobs b).filter (fun j => j.status == "FAILED")).length : ℚ) /
              ((fcWindow jobs b).length : ℚ)
        · have hne : fcWindow jobs b ≠ [] := by
            intro hnil
            rw [hnil] at h1
            simp at h1
          rcases hsome : (fcWindow jobs b).getLast? with _ | j
          · exact absurd (List.getLast?_eq_none_iff.mp hsome) hne
          · rw [if_pos h1, if_pos h2,
              show Option.map (fun j => acc ++
                  [{ job_id := j.job_id, type := AnomalyType.failure_cluster, backend := b }])
                  (some j) =
                some (acc ++
                  [{ job_id := j.job_id, type := AnomalyType.failure_cluster, backend := b }])
                from rfl, ih,
              show fcBlock jobs b = [Anomaly.mk j.job_id AnomalyType.failure_cluster b] from
                by rw [fcBlock, if_pos h1, if_pos h2, hsome],
              List.append_assoc, List.singleton_append]
        · rw [if_pos h1, if_neg h2, ih,
            show fcBlock jobs b = [] from by rw [fcBlock, if_pos h1, if_neg h2],
            List.nil_append]
      · rw [if_neg h1, ih,
          show fcBlock jobs b = [] from by rw [fcBlock, if_neg h1],
          List.nil_append]

/-- Claim C9 (confirmed for the strict model).  The only operations of the
four analytics functions that are partial in a strict semantics are the two
guarded array accesses (`sorted[idx]` in the aggregator and
`recent[recent.length - 1]` in the failure-cluster pass); the `Option`
threaded variants always succeed and agree with the total embeddings, so
none of the functions can throw on any input.  `computeDurations` and
`recommendBackends` contain no partial operation at all and are total Lean
functions by construction. -/
theorem core_never_throws (env : ParseEnv) (jobs : List Job) :
    estimateWaitTimesOpt env jobs = some (estimateWaitTimesByBackend env jobs) ∧
    (estimateWaitTimesOpt env jobs).isSome = true ∧
    detectAnomaliesOpt env jobs = some (detectAnomalies env jobs) ∧
    (detectAnomaliesOpt env jobs).isSome = true ∧
    (computeDurations env jobs).length = (jobs.filter (fun j => j.creation_time != "")).length ∧
    (recommendBackends env jobs defaultWeights).length =
      (dedupFirst (jobs.map normBackend)).length := by
  refine ⟨estimateWaitTimesOpt_eq env jobs, ?_, detectAnomaliesOpt_eq env jobs, ?_, ?_, ?_⟩
  · rw [estimateWaitTimesOpt_eq env jobs]
    rfl
  · rw [detectAnomaliesOpt_eq env jobs]
    rfl
  · rw [computeDurations, List.length_map]
  · rw [recommendBackends, (sortJS_perm scoredDescLt _).length_eq, scoreStats,
      List.length_map, mkStats, List.length_map]

end Analytics
